import Mathlib

/-!
# Verification of the Distributed File Sync System core

A shallow embedding, in Lean 4, of the synchronization engine of the
Distributed-File-Sync-System repository: metadata model, session state
machine (`src/sync/session.cpp`), Merkle diff (`src/sync/merkle_tree.cpp`),
chunked transfer (`src/sync/transfer.cpp`), conflict resolver
(`src/sync/conflict.cpp`), change detector (`src/sync/change_detector.cpp`)
and the composing sync service (`src/server/sync_service.cpp`).

Pure data is translated directly; the filesystem is modelled as
association lists from paths to byte contents (bytes as `Nat` values,
`< 256` at every concrete use); wall-clock timestamps and thread
scheduling are outside the model (every service operation here is the
body that runs under the service mutex).
-/

namespace DFS

/-- Decidable equality for `Except`, used to state results concretely. -/
instance {ε α : Type} [DecidableEq ε] [DecidableEq α] : DecidableEq (Except ε α) :=
  fun a b =>
    match a, b with
    | .ok x, .ok y => if h : x = y then isTrue (by rw [h]) else isFalse (by simp [h])
    | .error x, .error y =>
      if h : x = y then isTrue (by rw [h]) else isFalse (by simp [h])
    | .ok _, .error _ => isFalse (by simp)
    | .error _, .ok _ => isFalse (by simp)

/-! ## Strings as byte sequences

C++ `std::string` comparison is lexicographic on bytes.  Lean `String`
comparison does not reduce in the kernel, so we define the comparison on
the character data directly (code points; identical to byte order for
ASCII and order-equivalent for UTF-8). -/

/-- Lexicographic strict order on character lists, by code point. -/
def strLtB : List Char → List Char → Bool
  | [], [] => false
  | [], _ :: _ => true
  | _ :: _, [] => false
  | a :: as, b :: bs =>
    if a.toNat < b.toNat then true
    else if b.toNat < a.toNat then false
    else strLtB as bs

/-- `a < b` on strings, as C++ `std::string::operator<`. -/
def strLt (a b : String) : Bool := strLtB a.data b.data

/-- The bytes of a string (code points; exact for the ASCII strings the
system hashes: paths, hex digests and decimal numbers). -/
def strBytes (s : String) : List Nat := s.data.map (fun c => c.toNat)

/-! ## FNV-1a 64-bit digest and hex rendering

`transfer.cpp` (`hash_vector`, `hash_stream`) and `sync_service.cpp`
(`compute_file_hash`) all implement FNV-1a 64-bit over a byte stream and
render the result as 16 zero-padded lowercase hex digits.
`std::hash<std::string>` (used by `merkle_tree.cpp`,
`change_detector.cpp` and the repository's tests) is the platform's
string hash; the repository's tests require it to coincide with the
whole-file digest, which holds on the MSVC platform where
`std::hash` is FNV-1a 64-bit, so we model it by the same function.
All claims treat it as an opaque deterministic digest. -/

/-- One FNV-1a 64-bit step: xor the byte in, multiply by the prime, mod 2^64. -/
def fnvStep (h b : Nat) : Nat := ((h ^^^ (b % 256)) * 0x100000001b3) % 2 ^ 64

/-- FNV-1a 64-bit over a byte sequence. -/
def fnv64 (bs : List Nat) : Nat := bs.foldl fnvStep 0xcbf29ce484222325

/-- Hex digit character for a value `< 16` (lowercase, as `std::hex`). -/
def hexDigit (n : Nat) : Char :=
  if n < 10 then Char.ofNat (48 + n) else Char.ofNat (87 + n)

/-- A `Nat < 2^64` rendered as exactly 16 hex digits
(`std::setw(16)`, `std::setfill('0')`, `std::hex`). -/
def toHex16 (n : Nat) : String :=
  String.mk (((List.range 16).reverse).map (fun i => hexDigit (n / 16 ^ i % 16)))

/-- Digest of a byte sequence rendered as hex: `hash_vector` /
`hash_stream` in `transfer.cpp` and `compute_file_hash` in
`sync_service.cpp` (same algorithm, same rendering). -/
def hashBytes (bs : List Nat) : String := toHex16 (fnv64 bs)

/-- `std::hash<std::string>` as modelled (see section comment):
FNV-1a 64 of the string's bytes. -/
def stdHashString (s : String) : Nat := fnv64 (strBytes s)

/-- `hash_to_hex` of `merkle_tree.cpp` / `change_detector.cpp`:
a `std::size_t` rendered as 16 zero-padded hex digits. -/
def hash_to_hex (n : Nat) : String := toHex16 n

/-! ## Metadata model (`include/dfs/metadata/types.hpp`) -/

/-- `dfs::metadata::SyncState`. -/
inductive SyncState where
  | SYNCED | MODIFIED | SYNCING | CONFLICT | DELETED
deriving DecidableEq, Repr

/-- `dfs::metadata::ReplicaInfo`. -/
structure ReplicaInfo where
  replica_id : String
  version : Nat
  modified_time : Int
deriving DecidableEq, Repr

/-- `dfs::metadata::FileMetadata`. -/
structure FileMetadata where
  file_path : String := ""
  hash : String := ""
  size : Nat := 0
  modified_time : Int := 0
  created_time : Int := 0
  sync_state : SyncState := .SYNCED
  replicas : List ReplicaInfo := []
deriving DecidableEq, Repr

/-- Body of `FileMetadata::update_replica`: update the first entry whose
`replica_id` matches, else append a new entry. -/
def updateReplicaList (rs : List ReplicaInfo) (id : String) (version : Nat)
    (mtime : Int) : List ReplicaInfo :=
  match rs with
  | [] => [⟨id, version, mtime⟩]
  | r :: rest =>
    if r.replica_id = id then { r with version := version, modified_time := mtime } :: rest
    else r :: updateReplicaList rest id version mtime

/-- `FileMetadata::update_replica` (`types.hpp`, lines 237-249). -/
def FileMetadata.update_replica (m : FileMetadata) (id : String) (version : Nat)
    (mtime : Int) : FileMetadata :=
  { m with replicas := updateReplicaList m.replicas id version mtime }

/-- `find_replica` (`sync_service.cpp` lines 68-77, also
`ChangeDetector::find_replica`): first replica entry with the given id. -/
def find_replica (m : FileMetadata) (replica_id : String) : Option ReplicaInfo :=
  m.replicas.find? (fun r => r.replica_id = replica_id)

/-! ## Metadata store (`include/dfs/metadata/store.hpp`)

The store is a map from `file_path` to `FileMetadata`; modelled as a
list with unique keys (the store's invariant). -/

/-- `MetadataStore::get`: the record at a path, if any. -/
def storeGet (store : List FileMetadata) (path : String) : Option FileMetadata :=
  store.find? (fun m => m.file_path = path)

/-- `MetadataStore::add_or_update` (upsert): replace the record with the
same key, else append. -/
def storeAddOrUpdate (store : List FileMetadata) (m : FileMetadata) :
    List FileMetadata :=
  match store with
  | [] => [m]
  | x :: xs =>
    if x.file_path = m.file_path then m :: xs else x :: storeAddOrUpdate xs m

/-! ## Session state machine (`src/sync/session.cpp`) -/

/-- `dfs::sync::SessionState`. -/
inductive SessionState where
  | Idle | ComputingDiff | RequestingMetadata | TransferringFiles
  | ResolvingConflicts | ApplyingChanges | Complete | Failed
deriving DecidableEq, Repr, Fintype

/-- `dfs::sync::SyncSessionInfo` (wall-clock `started_at` omitted:
no claim mentions it). -/
structure SyncSessionInfo where
  session_id : String := ""
  client_id : String := ""
  state : SessionState := .Idle
  files_pending : Nat := 0
  bytes_pending : Nat := 0
  last_error : String := ""
deriving DecidableEq, Repr

/-- The static transition table of `is_progressive` (`session.cpp`
lines 11-18); states absent from the map have no entry. -/
def progressiveTargets : SessionState → List SessionState
  | .Idle => [.ComputingDiff]
  | .ComputingDiff => [.RequestingMetadata]
  | .RequestingMetadata => [.TransferringFiles]
  | .TransferringFiles => [.ResolvingConflicts, .ApplyingChanges, .Complete]
  | .ResolvingConflicts => [.ApplyingChanges, .Complete]
  | .ApplyingChanges => [.Complete]
  | .Complete => []
  | .Failed => []

/-- `is_progressive` (`session.cpp` lines 10-30): target `Failed` is
always allowed; otherwise look the current state up in the table. -/
def is_progressive (current target : SessionState) : Bool :=
  if target = .Failed then true
  else (progressiveTargets current).contains target

/-- `SyncSession::can_transition` (`session.cpp` lines 78-88). -/
def can_transition (info : SyncSessionInfo) (target : SessionState) : Bool :=
  if info.state = target then true
  else if info.state = .Failed ∨ info.state = .Complete then false
  else is_progressive info.state target

/-- `SyncSession::transition_to` (`session.cpp` lines 51-66): the result
and the (possibly unchanged) session. -/
def transition_to (info : SyncSessionInfo) (next : SessionState) :
    Except String Unit × SyncSessionInfo :=
  if info.state = next then (.ok (), info)
  else if ¬ can_transition info next then
    (.error "Illegal session state transition", info)
  else
    (.ok (), { info with
                 state := next,
                 last_error := if next ≠ .Failed then "" else info.last_error })

/-- `SyncSession::start` (`session.cpp` lines 41-49). -/
def sessionStart (info : SyncSessionInfo) (files_pending bytes_pending : Nat) :
    Except String Unit × SyncSessionInfo :=
  if info.state ≠ .Idle then (.error "Session already started", info)
  else
    transition_to
      { info with files_pending := files_pending, bytes_pending := bytes_pending }
      .ComputingDiff

/-- `SyncSession::mark_failed` (`session.cpp` lines 68-71): records the
error, then attempts the transition to `Failed`. -/
def mark_failed (info : SyncSessionInfo) (msg : String) :
    Except String Unit × SyncSessionInfo :=
  transition_to { info with last_error := msg } .Failed

/-- `SyncSession::update_pending` (`session.cpp` lines 73-76). -/
def update_pending (info : SyncSessionInfo) (files_pending bytes_pending : Nat) :
    SyncSessionInfo :=
  { info with files_pending := files_pending, bytes_pending := bytes_pending }

/-- The transition graph of spec §4.6, written from the spec's words:
the seven progressive edges plus `any non-terminal → Failed`.  Used to
compare `transition_to` against the spec (claim C5). -/
def specEdge : SessionState → SessionState → Bool
  | .Idle, .ComputingDiff => true
  | .ComputingDiff, .RequestingMetadata => true
  | .RequestingMetadata, .TransferringFiles => true
  | .TransferringFiles, .ResolvingConflicts => true
  | .TransferringFiles, .ApplyingChanges => true
  | .TransferringFiles, .Complete => true
  | .ResolvingConflicts, .ApplyingChanges => true
  | .ResolvingConflicts, .Complete => true
  | .ApplyingChanges, .Complete => true
  | .Complete, .Failed => false
  | .Failed, .Failed => false
  | _, .Failed => true
  | _, _ => false

/-! ## Merkle tree (`src/sync/merkle_tree.cpp`)

`leaves_` is a `std::map<std::string, std::string>`: a path-sorted map,
modelled as a list of pairs whose keys are strictly ascending. -/

/-- `MerkleTree::hash_leaf` (lines 67-71): digest of
`path + "|" + hash + "|" + std::to_string(size)`. -/
def hash_leaf (m : FileMetadata) : String :=
  hash_to_hex (stdHashString (m.file_path ++ "|" ++ m.hash ++ "|" ++ toString m.size))

/-- `std::map` assignment `leaves_[path] = digest`: insert in key order,
overwriting an existing binding. -/
def leavesInsert : List (String × String) → String → String → List (String × String)
  | [], k, v => [(k, v)]
  | (k', v') :: rest, k, v =>
    if strLt k k' then (k, v) :: (k', v') :: rest
    else if strLt k' k then (k', v') :: leavesInsert rest k v
    else (k, v) :: rest

/-- `MerkleTree::build` (lines 30-36): the leaf map after inserting every
file's `(path, leaf digest)`. -/
def buildLeaves (files : List FileMetadata) : List (String × String) :=
  files.foldl (fun acc m => leavesInsert acc m.file_path (hash_leaf m)) []

/-- `combine_hashes` (lines 11-26): digest of the ordered concatenation
of all `path + ":" + digest + ";"`, or empty for an empty map. -/
def combine_hashes (leaves : List (String × String)) : String :=
  if leaves = [] then ""
  else hash_to_hex (stdHashString
    (leaves.foldl (fun acc kv => acc ++ kv.1 ++ ":" ++ kv.2 ++ ";") ""))

/-- One step of the `MerkleTree::diff` merge loop (lines 44-62),
structurally recursive on a fuel argument (each iteration consumes at
least one element, so `|as| + |bs|` fuel always suffices). -/
def diffMergeF : Nat → List (String × String) → List (String × String) → List String
  | 0, _, _ => []
  | _ + 1, [], [] => []
  | fuel + 1, a :: as, [] => a.1 :: diffMergeF fuel as []
  | fuel + 1, [], b :: bs => b.1 :: diffMergeF fuel [] bs
  | fuel + 1, a :: as, b :: bs =>
    if strLt a.1 b.1 then a.1 :: diffMergeF fuel as (b :: bs)
    else if strLt b.1 a.1 then b.1 :: diffMergeF fuel (a :: as) bs
    else (if a.2 ≠ b.2 then [a.1] else []) ++ diffMergeF fuel as bs

/-- `MerkleTree::diff` (lines 38-65): linear merge of the two path-sorted
leaf maps, emitting paths present on one side only and paths present on
both with unequal digests. -/
def diffMerge (as bs : List (String × String)) : List String :=
  diffMergeF (as.length + bs.length) as bs

/-- Lookup in a leaf map (first binding for the key). -/
def leafLookup (leaves : List (String × String)) (k : String) : Option String :=
  (leaves.find? (fun kv => kv.1 = k)).map (fun kv => kv.2)

/-- Keys of a leaf map are strictly ascending (the `std::map` invariant;
established by `buildLeaves`). -/
def leavesSorted (leaves : List (String × String)) : Prop :=
  leaves.Pairwise (fun a b => strLt a.1 b.1 = true)

/-! ## Chunk transfer (`src/sync/transfer.cpp`)

Staging and data-root trees are maps from paths to byte contents.
The staging key is the `(session_id, file_path)` pair
(`make_staging_path` places the file at `staging_root/session_id/path`). -/

/-- `dfs::sync::ChunkEnvelope` (`include/dfs/sync/types.hpp`). -/
structure ChunkEnvelope where
  session_id : String := ""
  file_path : String := ""
  chunk_index : Nat := 0
  total_chunks : Nat := 0
  chunk_size : Nat := 0
  data : List Nat := []
  chunk_hash : String := ""
deriving DecidableEq, Repr

/-- A directory tree: association of paths to byte contents. -/
abbrev FsTree (κ : Type) := List (κ × List Nat)

/-- Contents at a key, if the file exists. -/
def fsGet {κ : Type} [DecidableEq κ] (fs : FsTree κ) (k : κ) : Option (List Nat) :=
  (fs.find? (fun e => e.1 = k)).map (fun e => e.2)

/-- Create or overwrite the file at a key. -/
def fsSet {κ : Type} [DecidableEq κ] (fs : FsTree κ) (k : κ) (v : List Nat) :
    FsTree κ :=
  match fs with
  | [] => [(k, v)]
  | e :: rest => if e.1 = k then (k, v) :: rest else e :: fsSet rest k v

/-- Remove the file at a key. -/
def fsErase {κ : Type} [DecidableEq κ] (fs : FsTree κ) (k : κ) : FsTree κ :=
  match fs with
  | [] => []
  | e :: rest => if e.1 = k then rest else e :: fsErase rest k

/-- Positioned write (`seekp(off)` then `write`): bytes before `off` are
kept (zero-filled past the old end, as a sparse file), `d` overwrites
`[off, off + |d|)`, bytes after are kept. -/
def writeAt (content : List Nat) (off : Nat) (d : List Nat) : List Nat :=
  let padded := content ++ List.replicate (off - content.length) 0
  padded.take off ++ d ++ padded.drop (off + d.length)

/-- The chunk envelopes `FileTransferService::upload_file` (lines 44-91)
produces for contents `F` and chunk size `C > 0`: iteration `i` of the
read loop sends bytes `[i*C, min((i+1)*C, |F|))` with
`total_chunks = (|F| + C - 1) / C` (integer division, line 59) and
`chunk_hash` the digest of the data. -/
def uploadChunks (F : List Nat) (C : Nat) (sid path : String) :
    List ChunkEnvelope :=
  let total := (F.length + C - 1) / C
  (List.range total).map (fun i =>
    { session_id := sid
      file_path := path
      chunk_index := i
      total_chunks := total
      chunk_size := C
      data := (F.drop (i * C)).take C
      chunk_hash := hashBytes ((F.drop (i * C)).take C) })

/-- `FileTransferService::upload_file` including the `chunk_size == 0`
guard (lines 49-51). -/
def upload_file (F : List Nat) (C : Nat) (sid path : String) :
    Except String (List ChunkEnvelope) :=
  if C = 0 then .error "chunk_size must be > 0"
  else .ok (uploadChunks F C sid path)

/-- `FileTransferService::apply_chunk` (lines 93-128): verify the chunk
digest, then write the data at offset `chunk_index * chunk_size` into
the staging file (created empty if absent). -/
def apply_chunk (c : ChunkEnvelope) (staging : FsTree (String × String)) :
    Except String (FsTree (String × String)) :=
  if c.chunk_hash ≠ hashBytes c.data then
    .error ("Chunk hash mismatch for " ++ c.file_path)
  else
    let key := (c.session_id, c.file_path)
    let old := (fsGet staging key).getD []
    .ok (fsSet staging key (writeAt old (c.chunk_index * c.chunk_size) c.data))

/-- `FileTransferService::finalize_file` (lines 130-163): require the
staging file, check its whole-file digest against `expected_hash`, then
rename it into the destination tree. -/
def finalize_file (sid path : String) (staging : FsTree (String × String))
    (dest : FsTree String) (expected_hash : String) :
    Except String (FsTree (String × String) × FsTree String) :=
  match fsGet staging (sid, path) with
  | none => .error ("Staging file missing: " ++ path)
  | some content =>
    if expected_hash ≠ hashBytes content then
      .error ("Final hash mismatch for " ++ path)
    else
      .ok (fsErase staging (sid, path), fsSet dest path content)

/-- Apply a list of chunk envelopes in order, stopping at the first
error: the experiment of spec §8 invariant 4 ("applying each produced
chunk via apply_chunk"). -/
def applyAll : List ChunkEnvelope → FsTree (String × String) →
    Except String (FsTree (String × String))
  | [], staging => .ok staging
  | c :: rest, staging =>
    match apply_chunk c staging with
    | .error e => .error e
    | .ok staging' => applyAll rest staging'

/-- End position (exclusive) of chunk `i` of contents `F` at chunk size
`C`: `min ((i+1)*C) |F|`. -/
def chunkEnd (F : List Nat) (C i : Nat) : Nat := min ((i + 1) * C) F.length

/-- Highest end position among the chunk indices in `S`. -/
def maxEnd (F : List Nat) (C : Nat) (S : List Nat) : Nat :=
  S.foldr (fun i acc => max (chunkEnd F C i) acc) 0

/-- Invariant of the staging contents after exactly the chunks with
indices in `S` have been applied: the file extends to the furthest
written end, carries `F`'s bytes wherever a written chunk covers the
position, and zero filler (sparse-file padding) elsewhere. -/
def coverInv (F : List Nat) (C : Nat) (S : List Nat) (content : List Nat) : Prop :=
  content.length = maxEnd F C S ∧
  ∀ p, p < content.length →
    content.get? p = if p / C ∈ S then F.get? p else some 0

/-! ## Conflict resolver (`src/sync/conflict.cpp`) -/

/-- `dfs::events::ConflictResolutionStrategy`. -/
inductive ConflictResolutionStrategy where
  | LastWriteWins | Manual | Merge
deriving DecidableEq, Repr

/-- `dfs::sync::ConflictResolutionResult` (`conflict.hpp` lines 9-14). -/
structure ConflictResolutionResult where
  resolved : FileMetadata
  other : FileMetadata
  strategy : ConflictResolutionStrategy
  requires_manual_attention : Bool
deriving DecidableEq, Repr

/-- Whether `select_newest(a, b)` (`conflict.cpp` lines 8-14) returns its
first argument: ties on `modified_time` go to the higher hash with
`a.hash >= b.hash` preferring `a`; otherwise the higher `modified_time`. -/
def selectNewestFirst (a b : FileMetadata) : Bool :=
  if a.modified_time = b.modified_time then ¬ strLt a.hash b.hash
  else decide (a.modified_time > b.modified_time)

/-- `select_newest` (`conflict.cpp` lines 8-14). -/
def select_newest (a b : FileMetadata) : FileMetadata :=
  if selectNewestFirst a b then a else b

/-- `ConflictResolver::resolve` (`conflict.cpp` lines 18-37); `localM` /
`remoteM` are the C++ `local` / `remote` arguments.  The loser is the
argument the winner's reference does not alias. -/
def resolve (localM remoteM : FileMetadata) (strategy : ConflictResolutionStrategy) :
    Except String ConflictResolutionResult :=
  match strategy with
  | .LastWriteWins =>
    let winner := select_newest localM remoteM
    let loser := if selectNewestFirst localM remoteM then remoteM else localM
    .ok ⟨winner, loser, strategy, false⟩
  | .Manual => .error "Manual resolution required"
  | .Merge => .error "Merge strategy not implemented"

/-! ## Change detector (`src/sync/change_detector.cpp`)

The directory walk is abstracted as the list of regular files it visits:
relative POSIX path, byte contents and modification time (`scan_directory`
lines 61-72 produce exactly these for each regular file). -/

/-- One regular file seen by the directory walk. -/
structure DirEntry where
  path : String
  content : List Nat
  mtime : Int
deriving DecidableEq, Repr

/-- `FileChange::Kind`. -/
inductive ChangeKind where
  | Added | Modified | Deleted
deriving DecidableEq, Repr

/-- `dfs::sync::FileChange` (`change_detector.hpp` lines 19-32). -/
structure FileChange where
  kind : ChangeKind := .Added
  path : String := ""
  current_metadata : FileMetadata := {}
  previous_metadata : Option FileMetadata := none
  base_version : Nat := 0
  base_hash : String := ""
deriving DecidableEq, Repr

/-- `dfs::sync::ChangeSet`. -/
structure ChangeSet where
  changes : List FileChange := []
  snapshot : List FileMetadata := []
deriving DecidableEq, Repr

/-- Lookup in an association list keyed by path (an `unordered_map`). -/
def alGet {α : Type} (l : List (String × α)) (k : String) : Option α :=
  (l.find? (fun e => e.1 = k)).map (fun e => e.2)

/-- `unordered_map::emplace`: insert only when the key is absent. -/
def alEmplace {α : Type} (l : List (String × α)) (k : String) (v : α) :
    List (String × α) :=
  match alGet l k with
  | some _ => l
  | none => l ++ [(k, v)]

/-- Detector state: `replica_id_` and the `known_` map (`local_versions_`
is write-only during a scan and read by no claim, so it is omitted). -/
structure DetectorState where
  replica_id : String
  known : List (String × FileMetadata)
deriving DecidableEq, Repr

/-- `ChangeDetector::load_snapshot` (lines 37-46): rebuild `known_` by
`emplace` over the snapshot. -/
def load_snapshot (replica_id : String) (snapshot : List FileMetadata) :
    DetectorState :=
  { replica_id := replica_id
    known := snapshot.foldl (fun acc m => alEmplace acc m.file_path m) [] }

/-- `ChangeDetector::build_metadata` (lines 172-186). -/
def build_metadata (e : DirEntry) : FileMetadata :=
  { file_path := e.path
    size := e.content.length
    hash := hashBytes e.content
    modified_time := e.mtime
    created_time := e.mtime
    sync_state := .SYNCED }

/-- `ChangeDetector::metadata_equal` (lines 188-190): only
`(hash, size, modified_time)` are compared. -/
def metadata_equal (lhs rhs : FileMetadata) : Bool :=
  lhs.hash = rhs.hash ∧ lhs.size = rhs.size ∧ lhs.modified_time = rhs.modified_time

/-- The `process_entry` lambda of `scan_directory` (lines 61-127), acting
on the accumulated `(changes, next_snapshot)`. -/
def processEntry (rid : String) (known : List (String × FileMetadata))
    (acc : List FileChange × List (String × FileMetadata)) (e : DirEntry) :
    List FileChange × List (String × FileMetadata) :=
  let new_metadata := build_metadata e
  match alGet known e.path with
  | none =>
    let nm := ({ new_metadata with sync_state := .MODIFIED }).update_replica
        rid 1 new_metadata.modified_time
    let change : FileChange :=
      { kind := .Added, path := e.path, current_metadata := nm,
        previous_metadata := none, base_version := 0, base_hash := "" }
    (acc.1 ++ [change], alEmplace acc.2 e.path nm)
  | some old_metadata =>
    if metadata_equal old_metadata new_metadata then
      (acc.1, alEmplace acc.2 e.path old_metadata)
    else
      let base_version := match find_replica old_metadata rid with
        | some r => r.version
        | none => 0
      let updated := ({ new_metadata with
                          sync_state := .MODIFIED,
                          replicas := old_metadata.replicas }).update_replica
          rid (base_version + 1) new_metadata.modified_time
      let change : FileChange :=
        { kind := .Modified, path := e.path, current_metadata := updated,
          previous_metadata := some old_metadata, base_version := base_version,
          base_hash := old_metadata.hash }
      (acc.1 ++ [change], alEmplace acc.2 e.path updated)

/-- The deletion change built for a known path not visited this scan
(`scan_directory` lines 140-160). -/
def deletionChange (rid : String) (p : String) (old_metadata : FileMetadata) :
    FileChange :=
  { kind := .Deleted
    path := p
    current_metadata := { old_metadata with sync_state := .DELETED }
    previous_metadata := some old_metadata
    base_version := match find_replica old_metadata rid with
      | some r => r.version
      | none => 0
    base_hash := old_metadata.hash }

/-- `ChangeDetector::scan_directory` (lines 52-170): process every
regular file, append deletion changes for known paths not visited, and
return the change set, post-scan snapshot, and the new detector state. -/
def scan_directory (st : DetectorState) (dir : List DirEntry) :
    ChangeSet × DetectorState :=
  let processed := dir.foldl (processEntry st.replica_id st.known) ([], [])
  let next_snapshot := processed.2
  let deletions := st.known.filterMap (fun kv =>
    if (alGet next_snapshot kv.1).isSome then none
    else some (deletionChange st.replica_id kv.1 kv.2))
  ({ changes := processed.1 ++ deletions,
     snapshot := next_snapshot.map (fun kv => kv.2) },
   { st with known := next_snapshot })

/-! ## Sync service (`src/server/sync_service.cpp`)

One service call is one critical section under the service mutex; each
operation maps the pre-state to a result and post-state.  Events carry
their payload fields; construction timestamps and durations are wall
clock and outside the model. -/

/-- The event types the sync service emits (`include/dfs/events/events.hpp`). -/
inductive Event where
  | SyncStarted (node_id : String) (file_count : Nat)
  | SyncCompleted (node_id : String) (files_synced : Nat)
  | SyncFailed (node_id : String) (error_message : String)
  | FileUploadStarted (session_id file_path : String) (total_bytes : Nat)
  | FileChunkReceived (session_id file_path : String)
      (chunk_index total_chunks bytes_received : Nat)
  | FileUploadCompleted (session_id file_path hash : String) (total_bytes : Nat)
  | FileAdded (m : FileMetadata) (origin : String)
  | FileModified (file_path old_hash new_hash : String)
      (old_size new_size : Nat) (origin : String)
deriving DecidableEq, Repr

/-- `SyncService::SessionData` (`service.hpp` lines 49-56); the two
`unordered_set`s are duplicate-free lists. -/
structure SessionData where
  session : SyncSessionInfo
  pending_uploads : List String := []
  started_uploads : List String := []
  total_upload_bytes : Nat := 0
  uploaded_bytes : Nat := 0
deriving DecidableEq, Repr

/-- The state a `SyncService` owns: the metadata store, both directory
trees, the clients and sessions tables, the id counters, and the trace
of events emitted on the bus. -/
structure ServiceState where
  store : List FileMetadata := []
  data_root : FsTree String := []
  staging_root : FsTree (String × String) := []
  clients : List String := []
  sessions : List (String × SessionData) := []
  client_counter : Nat := 0
  session_counter : Nat := 0
  events : List Event := []
deriving DecidableEq, Repr

/-- `generate_id` (`sync_service.cpp` lines 15-23). -/
def generate_id (base : String) (counter : Nat) : String :=
  if base = "" then "client-" ++ toString counter
  else base ++ "-" ++ toString counter

/-- The collision loop of `register_client` (lines 100-102): keep
suffixing the bumped counter while the candidate is taken.  Each round
strictly lengthens the candidate, so at most `|clients|` rounds collide;
the fuel bounds the recursion at that many rounds plus one. -/
def uniquify (clients : List String) (candidate : String) (counter : Nat) :
    Nat → String × Nat
  | 0 => (candidate, counter)
  | fuel + 1 =>
    if candidate ∈ clients then
      uniquify clients (generate_id candidate (counter + 1)) (counter + 1) fuel
    else (candidate, counter)

/-- `SyncService::register_client` (lines 93-105). -/
def register_client (s : ServiceState) (preferred_id : String) :
    String × ServiceState :=
  let counter := s.client_counter + 1
  let candidate := if preferred_id = "" then generate_id "" counter else preferred_id
  let (final, counter') := uniquify s.clients candidate counter (s.clients.length + 1)
  (final, { s with client_counter := counter', clients := s.clients ++ [final] })

/-- `SyncService::start_session` (lines 107-123). -/
def start_session (s : ServiceState) (client_id : String) :
    Except String SyncSessionInfo × ServiceState :=
  if client_id ∉ s.clients then (.error ("Unknown client: " ++ client_id), s)
  else
    let counter := s.session_counter + 1
    let session_id := "session-" ++ toString counter
    let session : SyncSessionInfo :=
      { session_id := session_id, client_id := client_id }
    match sessionStart session 0 0 with
    | (.error e, _) => (.error e, { s with session_counter := counter })
    | (.ok _, session') =>
      let sd : SessionData := { session := session' }
      (.ok session',
       { s with
           session_counter := counter
           sessions := s.sessions ++ [(session_id, sd)]
           events := s.events ++ [.SyncStarted client_id s.store.length] })

/-- `SyncService::make_snapshot_map` (lines 343-350): `emplace` of every
entry keyed by path (first occurrence wins). -/
def make_snapshot_map (snapshot : List FileMetadata) :
    List (String × FileMetadata) :=
  snapshot.foldl (fun acc m => alEmplace acc m.file_path m) []

/-- `dfs::sync::DiffResponse` (`types.hpp` lines 58-62). -/
structure DiffResponse where
  files_to_upload : List String := []
  files_to_download : List String := []
  files_to_delete_remote : List String := []
deriving DecidableEq, Repr

/-- One iteration of the loop over `differences` in `compute_diff`
(lines 154-164), accumulating the response and the upload byte tally. -/
def diffStep (client_map server_map : List (String × FileMetadata))
    (acc : DiffResponse × Nat) (path : String) : DiffResponse × Nat :=
  match alGet client_map path, alGet server_map path with
  | some cm, some sm =>
    if cm.hash ≠ sm.hash then
      ({ acc.1 with files_to_upload := acc.1.files_to_upload ++ [path] },
       acc.2 + cm.size)
    else acc
  | some cm, none =>
    ({ acc.1 with files_to_upload := acc.1.files_to_upload ++ [path] },
     acc.2 + cm.size)
  | none, some _ =>
    ({ acc.1 with files_to_download := acc.1.files_to_download ++ [path] }, acc.2)
  | none, none => acc

/-- `SyncService::compute_diff` (lines 125-182). -/
def compute_diff (s : ServiceState) (session_id : String)
    (client_snapshot : List FileMetadata) :
    Except String DiffResponse × ServiceState :=
  match alGet s.sessions session_id with
  | none => (.error ("Unknown session: " ++ session_id), s)
  | some sd =>
    let step1 : Except String Unit × SyncSessionInfo :=
      if sd.session.state = .Idle then
        transition_to sd.session .RequestingMetadata
      else (.ok (), sd.session)
    match step1 with
    | (.error e, _) => (.error e, s)
    | (.ok _, session1) =>
      let server_metadata := s.store
      let differences := diffMerge (buildLeaves client_snapshot)
        (buildLeaves server_metadata)
      let client_map := make_snapshot_map client_snapshot
      let server_map := make_snapshot_map server_metadata
      let looped := differences.foldl (diffStep client_map server_map) ({}, 0)
      let fallback := server_map.filterMap (fun kv =>
        if alGet client_map kv.1 = none then some kv.1 else none)
      let response : DiffResponse :=
        { looped.1 with
            files_to_download := looped.1.files_to_download ++ fallback }
      let session2 := update_pending session1 response.files_to_upload.length looped.2
      let session3 := (transition_to session2 .TransferringFiles).2
      let sd' : SessionData :=
        { session := session3
          pending_uploads := response.files_to_upload
          started_uploads := []
          total_upload_bytes := looped.2
          uploaded_bytes := 0 }
      (.ok response,
       { s with sessions := (s.sessions.map (fun kv =>
           if kv.1 = session_id then (kv.1, sd') else kv)) })

/-- Replace one session's data in the sessions table. -/
def setSession (s : ServiceState) (session_id : String) (sd : SessionData) :
    ServiceState :=
  { s with sessions := s.sessions.map (fun kv =>
      if kv.1 = session_id then (kv.1, sd) else kv) }

/-- `SyncService::ingest_chunk` (lines 184-213). -/
def ingest_chunk (s : ServiceState) (c : ChunkEnvelope) :
    Except String Unit × ServiceState :=
  match alGet s.sessions c.session_id with
  | none => (.error ("Unknown session: " ++ c.session_id), s)
  | some sd =>
    if c.file_path ∉ sd.pending_uploads then
      (.error ("File not scheduled for upload: " ++ c.file_path), s)
    else
      let inserted := c.file_path ∉ sd.started_uploads
      let sd1 := if inserted then
          { sd with started_uploads := sd.started_uploads ++ [c.file_path] }
        else sd
      let events1 := if inserted then
          [Event.FileUploadStarted c.session_id c.file_path
            (c.total_chunks * c.chunk_size)]
        else []
      match apply_chunk c s.staging_root with
      | .error e =>
        let sd2 := { sd1 with session := (mark_failed sd1.session e).2 }
        (.error e,
         { setSession s c.session_id sd2 with
             events := s.events ++ events1 ++
               [.SyncFailed sd1.session.client_id e] })
      | .ok staging' =>
        (.ok (),
         { setSession s c.session_id sd1 with
             staging_root := staging'
             events := s.events ++ events1 ++
               [.FileChunkReceived c.session_id c.file_path c.chunk_index
                 c.total_chunks c.data.length] })

/-- `SyncService::build_metadata_from_disk` (lines 313-325): size and
digest of the file now in the data root (`0` / empty digest when the
file is unreadable), both timestamps the current time. -/
def build_metadata_from_disk (data_root : FsTree String) (file_path : String)
    (now : Int) : FileMetadata :=
  { file_path := file_path
    size := match fsGet data_root file_path with
      | some content => content.length
      | none => 0
    hash := match fsGet data_root file_path with
      | some content => hashBytes content
      | none => ""
    modified_time := now
    created_time := now
    sync_state := .SYNCED }

/-- Remove one element from an `unordered_set` modelled as a list. -/
def listErase (l : List String) (x : String) : List String :=
  match l with
  | [] => []
  | y :: ys => if y = x then ys else y :: listErase ys x

/-- `SyncService::finalize_upload` (lines 215-284).  `now` is the wall
clock `std::time(nullptr)` observed by `build_metadata_from_disk`. -/
def finalize_upload (s : ServiceState) (session_id file_path expected_hash : String)
    (now : Int) : Except String FileMetadata × ServiceState :=
  match alGet s.sessions session_id with
  | none => (.error ("Unknown session: " ++ session_id), s)
  | some sd =>
    match finalize_file session_id file_path s.staging_root s.data_root
        expected_hash with
    | .error e =>
      let sd1 := { sd with session := (mark_failed sd.session e).2 }
      (.error e,
       { setSession s session_id sd1 with
           events := s.events ++ [.SyncFailed sd.session.client_id e] })
    | .ok (staging', data_root') =>
      let base := build_metadata_from_disk data_root' file_path now
      if base.hash ≠ expected_hash then
        let msg := "Hash mismatch after finalize"
        let sd1 := { sd with session := (mark_failed sd.session msg).2 }
        (.error ("Hash mismatch after finalize for " ++ file_path),
         { setSession s session_id sd1 with
             staging_root := staging'
             data_root := data_root'
             events := s.events ++ [.SyncFailed sd.session.client_id msg] })
      else
        let previous := storeGet s.store file_path
        let withReplicas := match previous with
          | some prev => { base with replicas := prev.replicas }
          | none => base
        let next_version := match previous with
          | some prev =>
            match find_replica prev sd.session.client_id with
            | some r => r.version + 1
            | none => 1
          | none => 1
        let new_metadata := withReplicas.update_replica sd.session.client_id
          next_version withReplicas.modified_time
        let changeEvent := match previous with
          | some prev =>
            Event.FileModified file_path prev.hash new_metadata.hash
              prev.size new_metadata.size "sync"
          | none => Event.FileAdded new_metadata "sync"
        let store' := storeAddOrUpdate s.store new_metadata
        let pending' := listErase sd.pending_uploads file_path
        let uploaded' := sd.uploaded_bytes + new_metadata.size
        let session1 := update_pending sd.session pending'.length
          (sd.total_upload_bytes - uploaded')
        let (session2, completionEvents) :=
          if pending' = [] then
            let sA := (transition_to session1 .ApplyingChanges).2
            let sB := (transition_to sA .Complete).2
            (sB, [Event.SyncCompleted sd.session.client_id store'.length])
          else (session1, [])
        let sd' : SessionData :=
          { sd with
              session := session2
              pending_uploads := pending'
              uploaded_bytes := uploaded' }
        (.ok new_metadata,
         { setSession s session_id sd' with
             staging_root := staging'
             data_root := data_root'
             store := store'
             events := s.events ++ [changeEvent,
               .FileUploadCompleted session_id file_path new_metadata.hash
                 new_metadata.size] ++ completionEvents })

/-- `SyncService::session_info` (lines 304-311). -/
def session_info (s : ServiceState) (session_id : String) :
    Except String SyncSessionInfo :=
  match alGet s.sessions session_id with
  | none => .error ("Unknown session: " ++ session_id)
  | some sd => .ok sd.session

/-! ## The S1 happy-path scenario

Spec §8 S1 and test `SyncServiceTest.UploadLifecycleCompletesSession`:
register a client, start a session, upload `docs/note.txt` with contents
`"example payload"` in chunks of 8 bytes, and finalize with the matching
digest. -/

/-- The bytes of `"example payload"` (15 bytes). -/
def scenario1Content : List Nat := strBytes "example payload"

/-- Whole-file digest `H` of the S1 contents. -/
def scenario1Hash : String := hashBytes scenario1Content

/-- Service state after `register_client` (no preferred id). -/
def scenario1Registered : String × ServiceState := register_client {} ""

/-- Service state after `start_session(client-1)`. -/
def scenario1Started : ServiceState :=
  (start_session scenario1Registered.2 scenario1Registered.1).2

/-- The client's snapshot record for `docs/note.txt`. -/
def scenario1ClientMeta : FileMetadata :=
  { file_path := "docs/note.txt", hash := scenario1Hash, size := 15 }

/-- Result and state of `compute_diff(session-1, [scenario1ClientMeta])`. -/
def scenario1Diff : Except String DiffResponse × ServiceState :=
  compute_diff scenario1Started "session-1" [scenario1ClientMeta]

/-- The chunk envelopes `upload_file` produces at chunk size 8. -/
def scenario1Chunks : List ChunkEnvelope :=
  uploadChunks scenario1Content 8 "session-1" "docs/note.txt"

/-- State after ingesting both chunks. -/
def scenario1Ingested : ServiceState :=
  scenario1Chunks.foldl (fun st c => (ingest_chunk st c).2) scenario1Diff.2

/-- Result and state of the final `finalize_upload` with the matching
expected hash (wall clock fixed at 1000). -/
def scenario1Finalize : Except String FileMetadata × ServiceState :=
  finalize_upload scenario1Ingested "session-1" "docs/note.txt" scenario1Hash 1000

/-- The metadata record the S1 finalize installs. -/
def scenario1StoredMeta : FileMetadata :=
  { file_path := "docs/note.txt", hash := scenario1Hash, size := 15,
    modified_time := 1000, created_time := 1000, sync_state := .SYNCED,
    replicas := [⟨"client-1", 1, 1000⟩] }

/-- The two snapshots of the repository's
`MerkleTreeTest.DetectsAddedAndModifiedFiles` test. -/
def merkleFilesA : List FileMetadata :=
  [{ file_path := "/a.txt", hash := "hashA", size := 100 },
   { file_path := "/b.txt", hash := "hashB", size := 42 }]

/-- Second snapshot: `/b.txt` modified, `/c.txt` added. -/
def merkleFilesB : List FileMetadata :=
  [{ file_path := "/a.txt", hash := "hashA", size := 100 },
   { file_path := "/b.txt", hash := "newHashB", size := 42 },
   { file_path := "/c.txt", hash := "hashC", size := 64 }]

/-- C2 counterexample fixture: server stores one file `a`, the client
snapshot is empty, one session already past `Idle`. -/
def c2State : ServiceState :=
  { store := [{ file_path := "a", hash := "h", size := 1 }]
    clients := ["c"]
    sessions := [("session-1",
      { session := { session_id := "session-1", client_id := "c",
                     state := .ComputingDiff } })] }

/-- C3 witness fixture: a session whose staging holds a complete file. -/
def c3State : ServiceState :=
  { staging_root := [(("s1", "f"), [7, 8])]
    sessions := [("s1",
      { session := { session_id := "s1", client_id := "c",
                     state := .TransferringFiles },
        pending_uploads := ["f"] })] }

/-- C10 witness fixture: a session already marked `Failed` with `f`
still pending. -/
def c10State : ServiceState :=
  { sessions := [("s1",
      { session := { session_id := "s1", client_id := "c", state := .Failed,
                     last_error := "previous error" },
        pending_uploads := ["f"] })] }

/-- A valid chunk for the C10 fixture (correct digest). -/
def c10Chunk : ChunkEnvelope :=
  { session_id := "s1", file_path := "f", chunk_index := 0, total_chunks := 1,
    chunk_size := 4, data := [1, 2, 3], chunk_hash := hashBytes [1, 2, 3] }

/-- C9 witness fixture: one known file with replica information. -/
def c9Snapshot : List FileMetadata :=
  [{ file_path := "note.txt", hash := hashBytes [104, 105], size := 2,
     modified_time := 5, created_time := 1, sync_state := .SYNCED,
     replicas := [⟨"other", 3, 4⟩] }]

/-- A directory whose single regular file matches the C9 snapshot in
path, content and modification time. -/
def c9Dir : List DirEntry := [⟨"note.txt", [104, 105], 5⟩]

/-! # Theorems -/

/-! ## String order facts -/

theorem strLtB_irrefl (l : List Char) : strLtB l l = false := by
  induction l with
  | nil => rfl
  | cons c cs ih => simp [strLtB, ih]

theorem strLtB_asymm : ∀ {a b : List Char}, strLtB a b = true → strLtB b a = false
  | [], [], h => by simp [strLtB] at h
  | [], _ :: _, _ => by simp [strLtB]
  | _ :: _, [], h => by simp [strLtB] at h
  | a :: as, b :: bs, h => by
    by_cases hab : a.toNat < b.toNat
    · have hba : ¬ b.toNat < a.toNat := Nat.lt_asymm hab
      simp [strLtB, hab, hba]
    · by_cases hba : b.toNat < a.toNat
      · simp [strLtB, hab, hba] at h
      · simp [strLtB, hab, hba] at h ⊢
        exact strLtB_asymm h

theorem strLt_irrefl (s : String) : strLt s s = false := strLtB_irrefl s.data

theorem strLt_asymm {a b : String} (h : strLt a b = true) : strLt b a = false :=
  strLtB_asymm h

theorem strLtB_trans : ∀ {a b c : List Char},
    strLtB a b = true → strLtB b c = true → strLtB a c = true
  | [], [], _, h1, _ => by simp [strLtB] at h1
  | [], _ :: _, [], _, h2 => by simp [strLtB] at h2
  | [], _ :: _, _ :: _, _, _ => by simp [strLtB]
  | _ :: _, [], _, h1, _ => by simp [strLtB] at h1
  | _ :: _, _ :: _, [], _, h2 => by simp [strLtB] at h2
  | a :: as, b :: bs, c :: cs, h1, h2 => by
    rcases Nat.lt_trichotomy a.toNat b.toNat with hab | hab | hab
    · rcases Nat.lt_trichotomy b.toNat c.toNat with hbc | hbc | hbc
      · have : a.toNat < c.toNat := Nat.lt_trans hab hbc
        simp [strLtB, this]
      · have : a.toNat < c.toNat := hbc ▸ hab
        simp [strLtB, this]
      · simp [strLtB, Nat.lt_asymm hbc, hbc] at h2
    · rcases Nat.lt_trichotomy b.toNat c.toNat with hbc | hbc | hbc
      · have : a.toNat < c.toNat := hab ▸ hbc
        simp [strLtB, this]
      · have hac : a.toNat = c.toNat := hab.trans hbc
        have h1' : strLtB as bs = true := by
          simp [strLtB, hab ▸ lt_irrefl a.toNat] at h1
          simpa [strLtB, hab] using h1
        have h2' : strLtB bs cs = true := by
          simpa [strLtB, hbc] using h2
        simp [strLtB, hac ▸ lt_irrefl a.toNat, hac, strLtB_trans h1' h2']
      · simp [strLtB, Nat.lt_asymm hbc, hbc] at h2
    · simp [strLtB, Nat.lt_asymm hab, hab] at h1

theorem charEq_of_toNat_eq {c d : Char} (h : c.toNat = d.toNat) : c = d := by
  calc c = Char.ofNat c.toNat := (Char.ofNat_toNat c).symm
    _ = Char.ofNat d.toNat := by rw [h]
    _ = d := Char.ofNat_toNat d

theorem strLtB_total : ∀ {a b : List Char},
    strLtB a b = false → strLtB b a = false → a = b
  | [], [], _, _ => rfl
  | [], _ :: _, h1, _ => by simp [strLtB] at h1
  | _ :: _, [], _, h2 => by simp [strLtB] at h2
  | a :: as, b :: bs, h1, h2 => by
    rcases Nat.lt_trichotomy a.toNat b.toNat with hab | hab | hab
    · simp [strLtB, hab] at h1
    · have h1' : strLtB as bs = false := by
        simpa [strLtB, hab ▸ lt_irrefl a.toNat, hab] using h1
      have h2' : strLtB bs as = false := by
        simpa [strLtB, hab ▸ lt_irrefl a.toNat, hab.symm] using h2
      rw [charEq_of_toNat_eq hab, strLtB_total h1' h2']
    · simp [strLtB, hab] at h2

theorem strLt_trans {a b c : String} (h1 : strLt a b = true)
    (h2 : strLt b c = true) : strLt a c = true := strLtB_trans h1 h2

theorem strLt_total {a b : String} (h1 : strLt a b = false)
    (h2 : strLt b a = false) : a = b := by
  have := strLtB_total (a := a.data) (b := b.data) h1 h2
  cases a; cases b; congr

/-! ## Merkle diff lemmas -/

theorem leafLookup_cons (kv : String × String) (l : List (String × String))
    (p : String) :
    leafLookup (kv :: l) p = if kv.1 = p then some kv.2 else leafLookup l p := by
  by_cases h : kv.1 = p <;> simp [leafLookup, List.find?, h]

theorem leafLookup_eq_none_of_forall_lt {l : List (String × String)} {q : String}
    (h : ∀ kv ∈ l, strLt q kv.1 = true) : leafLookup l q = none := by
  induction l with
  | nil => rfl
  | cons kv rest ih =>
    have hne : kv.1 ≠ q := by
      intro he
      have := h kv (by simp)
      rw [he] at this
      exact absurd this (by simp [strLt_irrefl])
    rw [leafLookup_cons, if_neg hne]
    exact ih (fun e he => h e (by simp [he]))

theorem forall_gt_of_sorted_head {b : String × String} {bs : List (String × String)}
    (hB : leavesSorted (b :: bs)) {q : String} (hq : strLt q b.1 = true) :
    ∀ kv ∈ b :: bs, strLt q kv.1 = true := by
  intro kv hkv
  rcases List.mem_cons.mp hkv with he | ht
  · subst he; exact hq
  · exact strLt_trans hq ((List.pairwise_cons.mp hB).1 kv ht)

theorem diffMergeF_subset : ∀ {fuel : Nat} {as bs : List (String × String)}
    {p : String}, p ∈ diffMergeF fuel as bs →
    p ∈ as.map Prod.fst ∨ p ∈ bs.map Prod.fst
  | 0, _, _, _, h => by simp [diffMergeF] at h
  | _ + 1, [], [], _, h => by simp [diffMergeF] at h
  | fuel + 1, a :: as, [], p, h => by
    rcases List.mem_cons.mp h with he | ht
    · simp [he]
    · rcases diffMergeF_subset ht with h' | h'
      · exact Or.inl (by simp [List.mem_cons]; right; simpa using h')
      · simp at h'
  | fuel + 1, [], b :: bs, p, h => by
    rcases List.mem_cons.mp h with he | ht
    · simp [he]
    · rcases diffMergeF_subset ht with h' | h'
      · simp at h'
      · exact Or.inr (by simp [List.mem_cons]; right; simpa using h')
  | fuel + 1, a :: as, b :: bs, p, h => by
    by_cases hab : strLt a.1 b.1 = true
    · rw [show diffMergeF (fuel + 1) (a :: as) (b :: bs)
          = a.1 :: diffMergeF fuel as (b :: bs) by simp [diffMergeF, hab]] at h
      rcases List.mem_cons.mp h with he | ht
      · simp [he]
      · rcases diffMergeF_subset ht with h' | h'
        · exact Or.inl (by simp [List.mem_cons]; right; simpa using h')
        · exact Or.inr h'
    · by_cases hba : strLt b.1 a.1 = true
      · rw [show diffMergeF (fuel + 1) (a :: as) (b :: bs)
            = b.1 :: diffMergeF fuel (a :: as) bs by simp [diffMergeF, hab, hba]] at h
        rcases List.mem_cons.mp h with he | ht
        · simp [he]
        · rcases diffMergeF_subset ht with h' | h'
          · exact Or.inl h'
          · exact Or.inr (by simp [List.mem_cons]; right; simpa using h')
      · rw [show diffMergeF (fuel + 1) (a :: as) (b :: bs)
            = (if a.2 ≠ b.2 then [a.1] else []) ++ diffMergeF fuel as bs by
              simp [diffMergeF, hab, hba]] at h
        rcases List.mem_append.mp h with hl | ht
        · have : p = a.1 := by
            by_cases hne : a.2 = b.2 <;> simp [hne] at hl
            exact hl
          simp [this]
        · rcases diffMergeF_subset ht with h' | h'
          · exact Or.inl (by simp [List.mem_cons]; right; simpa using h')
          · exact Or.inr (by simp [List.mem_cons]; right; simpa using h')

theorem diffMergeF_mem : ∀ {fuel : Nat} {as bs : List (String × String)},
    as.length + bs.length ≤ fuel → leavesSorted as → leavesSorted bs →
    ∀ p, p ∈ diffMergeF fuel as bs ↔ leafLookup as p ≠ leafLookup bs p
  | 0, as, bs, hfuel, _, _, p => by
    have ha : as = [] := List.eq_nil_of_length_eq_zero (by omega)
    have hb : bs = [] := List.eq_nil_of_length_eq_zero (by omega)
    subst ha; subst hb
    simp [diffMergeF, leafLookup]
  | fuel + 1, [], [], _, _, _, p => by simp [diffMergeF, leafLookup]
  | fuel + 1, a :: as, [], hfuel, hA, hB, p => by
    have ih := @diffMergeF_mem fuel as []
      (by simpa using Nat.le_of_succ_le_succ (by simpa using hfuel))
      ((List.pairwise_cons.mp hA).2) hB
    by_cases hp : a.1 = p
    · simp [diffMergeF, leafLookup_cons, hp, leafLookup]
    · simp only [diffMergeF, List.mem_cons, ih, leafLookup_cons, if_neg hp]
      simp [leafLookup, Ne.symm hp]
  | fuel + 1, [], b :: bs, hfuel, hA, hB, p => by
    have ih := @diffMergeF_mem fuel [] bs
      (by simpa using Nat.le_of_succ_le_succ (by simpa using hfuel))
      hA ((List.pairwise_cons.mp hB).2)
    by_cases hp : b.1 = p
    · simp [diffMergeF, leafLookup_cons, hp, leafLookup]
    · simp only [diffMergeF, List.mem_cons, ih, leafLookup_cons, if_neg hp]
      simp [leafLookup, Ne.symm hp]
  | fuel + 1, a :: as, b :: bs, hfuel, hA, hB, p => by
    have hfuel' : as.length + (b :: bs).length ≤ fuel := by
      simp only [List.length_cons] at hfuel ⊢; omega
    have hfuel'' : (a :: as).length + bs.length ≤ fuel := by
      simp only [List.length_cons] at hfuel ⊢; omega
    have hfuel''' : as.length + bs.length ≤ fuel := by
      simp only [List.length_cons] at hfuel; omega
    have hAt := (List.pairwise_cons.mp hA).2
    have hBt := (List.pairwise_cons.mp hB).2
    by_cases hab : strLt a.1 b.1 = true
    · have ih := diffMergeF_mem hfuel' hAt hB
      rw [show diffMergeF (fuel + 1) (a :: as) (b :: bs)
          = a.1 :: diffMergeF fuel as (b :: bs) by simp [diffMergeF, hab]]
      by_cases hp : a.1 = p
      · subst hp
        have hBnone : leafLookup (b :: bs) a.1 = none :=
          leafLookup_eq_none_of_forall_lt (forall_gt_of_sorted_head hB hab)
        simp [leafLookup_cons, hBnone]
      · simp only [List.mem_cons, ih, leafLookup_cons, if_neg hp]
        simp [Ne.symm hp]
    · by_cases hba : strLt b.1 a.1 = true
      · have ih := diffMergeF_mem hfuel'' hA hBt
        rw [show diffMergeF (fuel + 1) (a :: as) (b :: bs)
            = b.1 :: diffMergeF fuel (a :: as) bs by simp [diffMergeF, hab, hba]]
        by_cases hp : b.1 = p
        · subst hp
          have hAnone : leafLookup (a :: as) b.1 = none :=
            leafLookup_eq_none_of_forall_lt (forall_gt_of_sorted_head hA hba)
          simp [leafLookup_cons, hAnone]
        · simp only [List.mem_cons, ih, leafLookup_cons, if_neg hp]
          simp [Ne.symm hp]
      · have heq : a.1 = b.1 :=
          strLt_total (Bool.not_eq_true _ ▸ hab) (Bool.not_eq_true _ ▸ hba)
        have ih := diffMergeF_mem hfuel''' hAt hBt
        rw [show diffMergeF (fuel + 1) (a :: as) (b :: bs)
            = (if a.2 ≠ b.2 then [a.1] else []) ++ diffMergeF fuel as bs by
              simp [diffMergeF, hab, hba]]
        by_cases hp : a.1 = p
        · subst hp
          have hAnone : leafLookup as a.1 = none :=
            leafLookup_eq_none_of_forall_lt (List.pairwise_cons.mp hA).1
          have hBnone : leafLookup bs a.1 = none := by
            refine leafLookup_eq_none_of_forall_lt (fun kv hkv => ?_)
            rw [heq]
            exact (List.pairwise_cons.mp hB).1 kv hkv
          have hrec : a.1 ∉ diffMergeF fuel as bs := by
            rw [ih a.1]
            simp [hAnone, hBnone]
          have h1 : leafLookup (a :: as) a.1 = some a.2 := by
            rw [leafLookup_cons, if_pos rfl]
          have h2 : leafLookup (b :: bs) a.1 = some b.2 := by
            rw [leafLookup_cons, if_pos heq.symm]
          by_cases hv : a.2 = b.2 <;> simp [hv, hrec, h1, h2]
        · have hpb : b.1 ≠ p := heq ▸ hp
          have : p ∉ (if a.2 ≠ b.2 then [a.1] else []) := by
            by_cases hv : a.2 = b.2 <;> simp [hv, Ne.symm hp]
          simp only [List.mem_append, this, false_or, ih, leafLookup_cons,
            if_neg hp, if_neg hpb]

theorem diffMergeF_sorted : ∀ {fuel : Nat} {as bs : List (String × String)},
    as.length + bs.length ≤ fuel → leavesSorted as → leavesSorted bs →
    (diffMergeF fuel as bs).Pairwise (fun x y => strLt x y = true)
  | 0, _, _, _, _, _ => by simp [diffMergeF]
  | _ + 1, [], [], _, _, _ => by simp [diffMergeF]
  | fuel + 1, a :: as, [], hfuel, hA, hB => by
    have ih := @diffMergeF_sorted fuel as []
      (by simp only [List.length_cons, List.length_nil] at hfuel ⊢; omega)
      ((List.pairwise_cons.mp hA).2) hB
    refine List.pairwise_cons.mpr ⟨fun q hq => ?_, ih⟩
    rcases diffMergeF_subset hq with h' | h'
    · rcases List.mem_map.mp h' with ⟨kv, hkv, he⟩
      exact he ▸ (List.pairwise_cons.mp hA).1 kv hkv
    · simp at h'
  | fuel + 1, [], b :: bs, hfuel, hA, hB => by
    have ih := @diffMergeF_sorted fuel [] bs
      (by simp only [List.length_cons, List.length_nil] at hfuel ⊢; omega)
      hA ((List.pairwise_cons.mp hB).2)
    refine List.pairwise_cons.mpr ⟨fun q hq => ?_, ih⟩
    rcases diffMergeF_subset hq with h' | h'
    · simp at h'
    · rcases List.mem_map.mp h' with ⟨kv, hkv, he⟩
      exact he ▸ (List.pairwise_cons.mp hB).1 kv hkv
  | fuel + 1, a :: as, b :: bs, hfuel, hA, hB => by
    have hfuel' : as.length + (b :: bs).length ≤ fuel := by
      simp only [List.length_cons] at hfuel ⊢; omega
    have hfuel'' : (a :: as).length + bs.length ≤ fuel := by
      simp only [List.length_cons] at hfuel ⊢; omega
    have hfuel''' : as.length + bs.length ≤ fuel := by
      simp only [List.length_cons] at hfuel; omega
    have hAt := (List.pairwise_cons.mp hA).2
    have hBt := (List.pairwise_cons.mp hB).2
    by_cases hab : strLt a.1 b.1 = true
    · rw [show diffMergeF (fuel + 1) (a :: as) (b :: bs)
          = a.1 :: diffMergeF fuel as (b :: bs) by simp [diffMergeF, hab]]
      refine List.pairwise_cons.mpr ⟨fun q hq => ?_, diffMergeF_sorted hfuel' hAt hB⟩
      rcases diffMergeF_subset hq with h' | h'
      · rcases List.mem_map.mp h' with ⟨kv, hkv, he⟩
        exact he ▸ (List.pairwise_cons.mp hA).1 kv hkv
      · rcases List.mem_map.mp h' with ⟨kv, hkv, he⟩
        exact he ▸ forall_gt_of_sorted_head hB hab kv hkv
    · by_cases hba : strLt b.1 a.1 = true
      · rw [show diffMergeF (fuel + 1) (a :: as) (b :: bs)
            = b.1 :: diffMergeF fuel (a :: as) bs by simp [diffMergeF, hab, hba]]
        refine List.pairwise_cons.mpr
          ⟨fun q hq => ?_, diffMergeF_sorted hfuel'' hA hBt⟩
        rcases diffMergeF_subset hq with h' | h'
        · rcases List.mem_map.mp h' with ⟨kv, hkv, he⟩
          exact he ▸ forall_gt_of_sorted_head hA hba kv hkv
        · rcases List.mem_map.mp h' with ⟨kv, hkv, he⟩
          exact he ▸ (List.pairwise_cons.mp hB).1 kv hkv
      · have heq : a.1 = b.1 :=
          strLt_total (Bool.not_eq_true _ ▸ hab) (Bool.not_eq_true _ ▸ hba)
        rw [show diffMergeF (fuel + 1) (a :: as) (b :: bs)
            = (if a.2 ≠ b.2 then [a.1] else []) ++ diffMergeF fuel as bs by
              simp [diffMergeF, hab, hba]]
        have hrec := diffMergeF_sorted hfuel''' hAt hBt
        have hbound : ∀ q ∈ diffMergeF fuel as bs, strLt a.1 q = true := by
          intro q hq
          rcases diffMergeF_subset hq with h' | h'
          · rcases List.mem_map.mp h' with ⟨kv, hkv, he⟩
            exact he ▸ (List.pairwise_cons.mp hA).1 kv hkv
          · rcases List.mem_map.mp h' with ⟨kv, hkv, he⟩
            exact he ▸ heq ▸ (List.pairwise_cons.mp hB).1 kv hkv
        by_cases hv : a.2 = b.2
        · simpa [hv] using hrec
        · simp only [hv, ne_eq, not_false_eq_true, if_pos, List.singleton_append]
          exact List.pairwise_cons.mpr ⟨hbound, hrec⟩

theorem leavesInsert_mem {l : List (String × String)} {k v : String} :
    ∀ {x}, x ∈ leavesInsert l k v → x ∈ l ∨ x = (k, v) := by
  induction l with
  | nil => intro x hx; simp [leavesInsert] at hx; simp [hx]
  | cons e rest ih =>
    intro x hx
    by_cases h1 : strLt k e.1 = true
    · simp only [leavesInsert, h1, if_pos] at hx
      rcases List.mem_cons.mp hx with he | ht
      · simp [he]
      · simp [List.mem_cons.mp ht]
    · by_cases h2 : strLt e.1 k = true
      · simp only [leavesInsert, h1, h2, if_neg, if_pos, Bool.false_eq_true,
          not_false_eq_true] at hx
        rcases List.mem_cons.mp hx with he | ht
        · simp [he]
        · rcases ih ht with h' | h'
          · simp [h']
          · simp [h']
      · simp only [leavesInsert, h1, h2, if_neg, Bool.false_eq_true,
          not_false_eq_true] at hx
        rcases List.mem_cons.mp hx with he | ht
        · simp [he]
        · simp [ht]

theorem leavesInsert_sorted {l : List (String × String)} {k v : String}
    (h : leavesSorted l) : leavesSorted (leavesInsert l k v) := by
  induction l with
  | nil => simp [leavesInsert, leavesSorted]
  | cons e rest ih =>
    have hhead := (List.pairwise_cons.mp h).1
    have htail := (List.pairwise_cons.mp h).2
    by_cases h1 : strLt k e.1 = true
    · simp only [leavesInsert, h1, if_pos]
      refine List.pairwise_cons.mpr ⟨fun q hq => ?_, h⟩
      rcases List.mem_cons.mp hq with he | ht
      · rw [he]; exact h1
      · exact strLt_trans h1 (hhead q ht)
    · by_cases h2 : strLt e.1 k = true
      · simp only [leavesInsert, h1, h2, if_neg, if_pos, Bool.false_eq_true,
          not_false_eq_true]
        refine List.pairwise_cons.mpr ⟨fun q hq => ?_, ih htail⟩
        rcases leavesInsert_mem hq with h' | h'
        · exact hhead q h'
        · rw [h']; exact h2
      · have heq : k = e.1 :=
          strLt_total (Bool.not_eq_true _ ▸ h1) (Bool.not_eq_true _ ▸ h2)
        simp only [leavesInsert, h1, h2, if_neg, Bool.false_eq_true,
          not_false_eq_true]
        refine List.pairwise_cons.mpr ⟨fun q hq => ?_, htail⟩
        rw [heq]
        exact hhead q hq

theorem buildLeaves_sorted (files : List FileMetadata) :
    leavesSorted (buildLeaves files) := by
  suffices h : ∀ (acc : List (String × String)), leavesSorted acc →
      leavesSorted (files.foldl
        (fun acc m => leavesInsert acc m.file_path (hash_leaf m)) acc) by
    exact h [] (by simp [leavesSorted])
  induction files with
  | nil => intro acc hacc; simpa using hacc
  | cons m rest ih =>
    intro acc hacc
    exact ih (leavesInsert acc m.file_path (hash_leaf m)) (leavesInsert_sorted hacc)

theorem sorted_nodup {l : List String}
    (h : l.Pairwise (fun x y => strLt x y = true)) : l.Nodup := by
  refine List.Pairwise.imp ?_ h
  intro a b hab he
  rw [he] at hab
  exact absurd hab (by simp [strLt_irrefl])

/-! ## C7 — Merkle diff -/

/-- C7: for path-sorted leaf maps (the `std::map` invariant, established
by `build`), `A.diff(B)` contains a path exactly when the two maps
disagree at it (absent on one side, or bound to different digests); the
output is strictly ascending, hence each such path occurs exactly once;
and the diff is symmetric as a set of paths. -/
theorem merkle_diff_spec (A B : List (String × String))
    (hA : leavesSorted A) (hB : leavesSorted B) :
    (∀ p, p ∈ diffMerge A B ↔ leafLookup A p ≠ leafLookup B p)
    ∧ (diffMerge A B).Pairwise (fun x y => strLt x y = true)
    ∧ (∀ p, p ∈ diffMerge A B → (diffMerge A B).count p = 1)
    ∧ (∀ p, p ∈ diffMerge A B ↔ p ∈ diffMerge B A) := by
  have hmem := @diffMergeF_mem (A.length + B.length) A B le_rfl hA hB
  have hmem' := @diffMergeF_mem (B.length + A.length) B A le_rfl hB hA
  have hsorted := @diffMergeF_sorted (A.length + B.length) A B le_rfl hA hB
  refine ⟨hmem, hsorted, fun p hp => ?_, fun p => ?_⟩
  · exact List.count_eq_one_of_mem (sorted_nodup hsorted) hp
  · rw [diffMerge, diffMerge, hmem p, hmem' p]
    exact ⟨fun h => fun he => h he.symm, fun h => fun he => h he.symm⟩

/-- Witness for C7, on the repository's Merkle test snapshots: `/b.txt`
(modified) is in the diff, `/a.txt` (unchanged) is not. -/
theorem merkle_diff_spec_witness :
    ("/b.txt" ∈ diffMerge (buildLeaves merkleFilesA) (buildLeaves merkleFilesB)
      ↔ leafLookup (buildLeaves merkleFilesA) "/b.txt"
          ≠ leafLookup (buildLeaves merkleFilesB) "/b.txt")
    ∧ ("/a.txt" ∈ diffMerge (buildLeaves merkleFilesA) (buildLeaves merkleFilesB)
      ↔ leafLookup (buildLeaves merkleFilesA) "/a.txt"
          ≠ leafLookup (buildLeaves merkleFilesB) "/a.txt") :=
  ⟨(merkle_diff_spec (buildLeaves merkleFilesA) (buildLeaves merkleFilesB)
      (buildLeaves_sorted merkleFilesA) (buildLeaves_sorted merkleFilesB)).1 "/b.txt",
   (merkle_diff_spec (buildLeaves merkleFilesA) (buildLeaves merkleFilesB)
      (buildLeaves_sorted merkleFilesA) (buildLeaves_sorted merkleFilesB)).1 "/a.txt"⟩

/-! ## C5 — session state machine vs the §4.6 graph -/

/-- C5: `transition_to(target)` is a no-op `Ok` when `target` is the
current state; it succeeds exactly along the edges of the §4.6 graph
(including non-terminal → Failed) and then moves the state to `target`;
every other attempt — including any attempt to leave `Complete` or
`Failed` — returns an error and leaves the session unchanged. -/
theorem transition_to_matches_spec_graph (info : SyncSessionInfo) (t : SessionState) :
    (t = info.state → transition_to info t = (.ok (), info))
    ∧ (t ≠ info.state → specEdge info.state t = true →
        (transition_to info t).1 = .ok () ∧ ((transition_to info t).2).state = t)
    ∧ (t ≠ info.state → specEdge info.state t = false →
        (transition_to info t).1 = .error "Illegal session state transition"
        ∧ (transition_to info t).2 = info) := by
  obtain ⟨sid, cid, st, fp, bp, le⟩ := info
  cases st <;> cases t <;>
    simp [transition_to, can_transition, is_progressive, progressiveTargets,
      specEdge, List.contains]

/-- Witness for C5: from `TransferringFiles`, the edge to `Complete` is
taken and succeeds. -/
theorem transition_to_matches_spec_graph_witness :
    (transition_to ⟨"s", "c", .TransferringFiles, 0, 0, ""⟩ .Complete).1 = .ok ()
    ∧ ((transition_to ⟨"s", "c", .TransferringFiles, 0, 0, ""⟩ .Complete).2).state
        = .Complete :=
  (transition_to_matches_spec_graph ⟨"s", "c", .TransferringFiles, 0, 0, ""⟩
    .Complete).2.1 (by decide) (by decide)

/-! ## C8 — LastWriteWins conflict resolution -/

/-- C8: with `LastWriteWins`, `resolve` always returns `Ok` with
`requires_manual_attention = false`; the winner is the record with the
higher `modified_time`; on a `modified_time` tie the record with the
lexicographically higher `hash`; and when both tie the local record. -/
theorem resolve_last_write_wins_spec (localM remoteM : FileMetadata) :
    ∃ res, resolve localM remoteM .LastWriteWins = .ok res
      ∧ res.requires_manual_attention = false
      ∧ (remoteM.modified_time < localM.modified_time → res.resolved = localM)
      ∧ (localM.modified_time < remoteM.modified_time → res.resolved = remoteM)
      ∧ (localM.modified_time = remoteM.modified_time →
          strLt remoteM.hash localM.hash = true → res.resolved = localM)
      ∧ (localM.modified_time = remoteM.modified_time →
          strLt localM.hash remoteM.hash = true → res.resolved = remoteM)
      ∧ (localM.modified_time = remoteM.modified_time →
          localM.hash = remoteM.hash → res.resolved = localM) := by
  refine ⟨_, rfl, rfl, ?_, ?_, ?_, ?_, ?_⟩
  · intro h
    have hne : localM.modified_time ≠ remoteM.modified_time := ne_of_gt h
    simp [select_newest, selectNewestFirst, hne, h]
  · intro h
    have hne : localM.modified_time ≠ remoteM.modified_time := ne_of_lt h
    simp [select_newest, selectNewestFirst, hne, not_lt_of_gt h]
  · intro he h
    simp [select_newest, selectNewestFirst, he, strLt_asymm h]
  · intro he h
    simp [select_newest, selectNewestFirst, he, h]
  · intro he h
    simp [select_newest, selectNewestFirst, he, h, strLt_irrefl]

/-- Witness for C8: a full tie (`modified_time` and `hash` both equal)
resolves to the local record. -/
theorem resolve_last_write_wins_spec_witness :
    ∃ res, resolve { file_path := "/doc.txt", hash := "h", modified_time := 100 }
        { file_path := "/doc.txt", hash := "h", modified_time := 100 }
        .LastWriteWins = .ok res
      ∧ res.resolved = { file_path := "/doc.txt", hash := "h", modified_time := 100 }
      ∧ res.requires_manual_attention = false := by
  obtain ⟨res, h1, h2, _, _, _, _, h7⟩ :=
    resolve_last_write_wins_spec
      { file_path := "/doc.txt", hash := "h", modified_time := 100 }
      { file_path := "/doc.txt", hash := "h", modified_time := 100 }
  exact ⟨res, h1, h7 rfl rfl, h2⟩

/-! ## C6 — apply_chunk rejects corrupt chunks -/

/-- C6: when the envelope's `chunk_hash` differs from the digest of its
`data`, `apply_chunk` fails with the hash-mismatch error and performs no
staging write (the staging tree is only ever replaced by the `Ok`
payload, so an error leaves every staging file untouched); bytes are
written only in the matching case. -/
theorem apply_chunk_hash_mismatch_rejected (c : ChunkEnvelope)
    (staging : FsTree (String × String)) (h : c.chunk_hash ≠ hashBytes c.data) :
    apply_chunk c staging = .error ("Chunk hash mismatch for " ++ c.file_path) := by
  simp [apply_chunk, h]

/-- Witness for C6: the repository's `DetectsCorruptedChunk` test chunk
(`data = "Bad"`, `chunk_hash = "deadbeef"`) is rejected on empty staging. -/
theorem apply_chunk_hash_mismatch_rejected_witness :
    apply_chunk ⟨"session-2", "file.txt", 0, 1, 16, [66, 97, 100], "deadbeef"⟩ []
      = .error ("Chunk hash mismatch for " ++ "file.txt") :=
  apply_chunk_hash_mismatch_rejected
    ⟨"session-2", "file.txt", 0, 1, 16, [66, 97, 100], "deadbeef"⟩ [] (by decide)

/-! ## Association list lemmas -/

theorem alGet_cons {α : Type} (k : String) (v : α) (l : List (String × α))
    (p : String) : alGet ((k, v) :: l) p = if k = p then some v else alGet l p := by
  by_cases h : k = p <;> simp [alGet, List.find?, h]

theorem alGet_append {α : Type} (l1 l2 : List (String × α)) (p : String) :
    alGet (l1 ++ l2) p = (alGet l1 p).or (alGet l2 p) := by
  simp only [alGet, List.find?_append]
  cases List.find? (fun e => e.1 = p) l1 <;> simp

theorem storeGet_cons (m : FileMetadata) (rest : List FileMetadata) (p : String) :
    storeGet (m :: rest) p = if m.file_path = p then some m else storeGet rest p := by
  by_cases h : m.file_path = p <;> simp [storeGet, List.find?, h]

theorem storeGet_isSome (files : List FileMetadata) (p : String) :
    (storeGet files p).isSome = true ↔ p ∈ files.map (fun m => m.file_path) := by
  induction files with
  | nil => simp [storeGet]
  | cons m rest ih =>
    by_cases h : m.file_path = p
    · simp [storeGet_cons, h]
    · simp [storeGet_cons, h, ih, Ne.symm h]

theorem alGet_alEmplace {α : Type} (acc : List (String × α)) (k : String) (v : α)
    (p : String) :
    alGet (alEmplace acc k v) p =
      match alGet acc k with
      | some _ => alGet acc p
      | none => (alGet acc p).or (if k = p then some v else none) := by
  unfold alEmplace
  cases h : alGet acc k with
  | some w => simp [h]
  | none =>
    simp only [h, alGet_append]
    congr 1
    by_cases hp : k = p <;> simp [alGet_cons, alGet, hp]

theorem alGet_make_snapshot_map (files : List FileMetadata) (p : String) :
    alGet (make_snapshot_map files) p = storeGet files p := by
  suffices h : ∀ acc : List (String × FileMetadata),
      alGet (files.foldl (fun acc m => alEmplace acc m.file_path m) acc) p
        = (alGet acc p).or (storeGet files p) by
    have := h []
    simpa [make_snapshot_map, alGet] using this
  induction files with
  | nil =>
    intro acc
    simp [storeGet]
  | cons m rest ih =>
    intro acc
    rw [List.foldl_cons, ih, alGet_alEmplace]
    cases hk : alGet acc m.file_path with
    | some w =>
      by_cases hp : m.file_path = p
      · subst hp; simp [hk, storeGet_cons]
      · simp [storeGet_cons, hp]
    | none =>
      by_cases hp : m.file_path = p
      · subst hp
        cases hacc : alGet acc m.file_path with
        | some w => rw [hacc] at hk; cases hk
        | none => simp [storeGet_cons]
      · cases alGet acc p <;> simp [storeGet_cons, hp]

theorem make_snapshot_map_eq_of_nodup (files : List FileMetadata)
    (h : (files.map (fun m => m.file_path)).Nodup) :
    make_snapshot_map files = files.map (fun m => (m.file_path, m)) := by
  suffices hgen : ∀ (fs : List FileMetadata) (acc : List (String × FileMetadata)),
      (fs.map (fun m => m.file_path)).Nodup →
      (∀ m ∈ fs, alGet acc m.file_path = none) →
      fs.foldl (fun acc m => alEmplace acc m.file_path m) acc
        = acc ++ fs.map (fun m => (m.file_path, m)) by
    simpa [make_snapshot_map] using hgen files [] h (fun m _ => rfl)
  intro fs
  induction fs with
  | nil => intro acc _ _; simp
  | cons m rest ih =>
    intro acc hnodup hacc
    have hm : alGet acc m.file_path = none := hacc m (by simp)
    have hstep : alEmplace acc m.file_path m = acc ++ [(m.file_path, m)] := by
      unfold alEmplace; rw [hm]
    have hn : (m.file_path :: rest.map (fun m => m.file_path)).Nodup := by
      rw [List.map_cons] at hnodup; exact hnodup
    have hhead : m.file_path ∉ rest.map (fun m => m.file_path) :=
      (List.nodup_cons.mp hn).1
    rw [List.foldl_cons, hstep,
      ih (acc ++ [(m.file_path, m)])
        (List.nodup_cons.mp hn).2
        (fun m' hm' => by
          rw [alGet_append, hacc m' (by simp [hm'])]
          have hne : m.file_path ≠ m'.file_path := by
            intro he
            exact hhead (he ▸ List.mem_map.mpr ⟨m', hm', rfl⟩)
          simp [alGet_cons, alGet, hne])]
    simp

theorem leavesInsert_lookup (l : List (String × String)) (k v q : String) :
    leafLookup (leavesInsert l k v) q = if k = q then some v else leafLookup l q := by
  induction l with
  | nil =>
    by_cases h : k = q <;> simp [leavesInsert, leafLookup_cons, leafLookup, h]
  | cons e rest ih =>
    by_cases h1 : strLt k e.1 = true
    · simp [leavesInsert, h1, leafLookup_cons]
    · by_cases h2 : strLt e.1 k = true
      · have hek : e.1 ≠ k := by
          intro he
          rw [he] at h2
          exact absurd h2 (by simp [strLt_irrefl])
        simp only [leavesInsert, h1, h2, if_neg, if_pos, Bool.false_eq_true,
          not_false_eq_true, leafLookup_cons, ih]
        by_cases heq : e.1 = q
        · have : k ≠ q := fun hkq => hek (by rw [heq, hkq])
          simp [heq, this]
        · simp [heq]
      · have heq : k = e.1 :=
          strLt_total (Bool.not_eq_true _ ▸ h1) (Bool.not_eq_true _ ▸ h2)
        simp only [leavesInsert, h1, h2, if_neg, Bool.false_eq_true,
          not_false_eq_true, leafLookup_cons]
        by_cases hq : k = q
        · simp [hq, heq ▸ hq]
        · have : e.1 ≠ q := heq ▸ hq
          simp [hq, this]

theorem buildLeaves_lookup_isSome (files : List FileMetadata) (p : String) :
    (leafLookup (buildLeaves files) p).isSome = true
      ↔ p ∈ files.map (fun m => m.file_path) := by
  suffices h : ∀ acc : List (String × String),
      (leafLookup (files.foldl
          (fun acc m => leavesInsert acc m.file_path (hash_leaf m)) acc) p).isSome
        = true
      ↔ (leafLookup acc p).isSome = true ∨ p ∈ files.map (fun m => m.file_path) by
    have := h []
    simpa [buildLeaves, leafLookup] using this
  induction files with
  | nil => intro acc; simp
  | cons m rest ih =>
    intro acc
    rw [List.foldl_cons, ih]
    by_cases hp : m.file_path = p
    · simp [leavesInsert_lookup, hp]
    · simp [leavesInsert_lookup, hp, Ne.symm hp, or_assoc]

/-! ## Counting lemmas for the diff response -/

theorem count_filter_nodup (l : List String) (pr : String → Bool) (p : String)
    (h : l.Nodup) :
    (l.filter pr).count p = if p ∈ l ∧ pr p = true then 1 else 0 := by
  induction l with
  | nil => simp
  | cons a rest ih =>
    have hna : a ∉ rest := (List.nodup_cons.mp h).1
    have ihr := ih (List.nodup_cons.mp h).2
    by_cases pa : pr a = true
    · rw [List.filter_cons, if_pos pa]
      by_cases hap : a = p
      · subst hap
        have : a ∉ rest ∨ True := Or.inl hna
        rw [List.count_cons, ihr]
        simp [hna, pa]
      · rw [List.count_cons, ihr]
        simp [hap, Ne.symm hap]
    · rw [List.filter_cons, if_neg pa, ihr]
      by_cases hap : a = p
      · subst hap
        simp [pa, hna]
      · simp [Ne.symm hap]

theorem count_fallback (cm : List (String × FileMetadata)) :
    ∀ (sm : List (String × FileMetadata)) (p : String),
    (sm.map Prod.fst).Nodup →
    (sm.filterMap (fun kv =>
        if alGet cm kv.1 = none then some kv.1 else none)).count p
      = if p ∈ sm.map Prod.fst ∧ alGet cm p = none then 1 else 0
  | [], p, _ => by simp
  | kv :: rest, p, h => by
    have hn : (kv.1 :: rest.map Prod.fst).Nodup := by
      rw [List.map_cons] at h; exact h
    have hna : kv.1 ∉ rest.map Prod.fst := (List.nodup_cons.mp hn).1
    have ihr := count_fallback cm rest p (List.nodup_cons.mp hn).2
    by_cases hc : alGet cm kv.1 = none
    · rw [@List.filterMap_cons_some (String × FileMetadata) String
        (fun kv => if alGet cm kv.1 = none then some kv.1 else none) kv rest kv.1
        (by simp [hc]), List.count_cons, ihr]
      by_cases hp : kv.1 = p
      · subst hp
        simp [hna, hc]
      · have hiff : (p ∈ kv.1 :: List.map Prod.fst rest)
            ↔ (p ∈ List.map Prod.fst rest) := by
          simp [List.mem_cons, Ne.symm hp]
        simp only [List.map_cons, hiff, beq_iff_eq, hp, if_false]
        simp [hp]
    · rw [@List.filterMap_cons_none (String × FileMetadata) String
        (fun kv => if alGet cm kv.1 = none then some kv.1 else none) kv rest
        (by simp [hc]), ihr]
      by_cases hp : kv.1 = p
      · subst hp
        simp [hc]
      · have hiff : (p ∈ kv.1 :: List.map Prod.fst rest)
            ↔ (p ∈ List.map Prod.fst rest) := by
          simp [List.mem_cons, Ne.symm hp]
        simp only [List.map_cons, hiff]

theorem foldl_diffStep_downloads (cm sm : List (String × FileMetadata)) :
    ∀ (ps : List String) (acc : DiffResponse × Nat),
    ((ps.foldl (diffStep cm sm) acc).1).files_to_download
      = acc.1.files_to_download
        ++ ps.filter (fun p => (alGet cm p).isNone && (alGet sm p).isSome)
  | [], acc => by simp
  | p :: rest, acc => by
    rw [List.foldl_cons, foldl_diffStep_downloads cm sm rest, List.filter_cons]
    cases hc : alGet cm p <;> cases hs : alGet sm p
    · simp [diffStep, hc, hs]
    · simp [diffStep, hc, hs]
    · simp [diffStep, hc, hs]
    · rename_i cmv smv
      by_cases hh : cmv.hash ≠ smv.hash <;> simp [diffStep, hc, hs, hh]

/-! ## C2 — duplicate paths in to_download (corrected) -/

/-- C2 counterexample: with the server storing only `a` and an empty
client snapshot, `compute_diff` lists `a` twice in `to_download` (once
from the Merkle diff loop, once from the server-only fallback loop), so
the claim's "each path at most once" fails. -/
theorem compute_diff_download_duplicate_counterexample :
    ∃ resp, (compute_diff c2State "session-1" []).1 = .ok resp
      ∧ resp.files_to_download = ["a", "a"]
      ∧ ¬ resp.files_to_download.count "a" ≤ 1 :=
  ⟨{ files_to_upload := [], files_to_download := ["a", "a"],
     files_to_delete_remote := [] }, by decide, by decide, by decide⟩

/-- C2 (amended): for a session past `Idle` and duplicate-free path
sets, `compute_diff` succeeds and its `to_download` list contains each
path that is in the server store but not in the client snapshot exactly
twice — once from the diff loop and once from the fallback loop — and
no other path. -/
theorem compute_diff_download_twice
    (s : ServiceState) (sid : String) (snapshot : List FileMetadata)
    (sd : SessionData) (hsd : alGet s.sessions sid = some sd)
    (hstate : ¬ sd.session.state = .Idle)
    (hstore : (s.store.map (fun m => m.file_path)).Nodup) :
    ∃ resp, (compute_diff s sid snapshot).1 = .ok resp ∧
      ∀ p, resp.files_to_download.count p =
        if p ∈ s.store.map (fun m => m.file_path)
            ∧ p ∉ snapshot.map (fun m => m.file_path) then 2 else 0 := by
  simp only [compute_diff, hsd, if_neg hstate]
  refine ⟨_, rfl, fun p => ?_⟩
  have hsortA := buildLeaves_sorted snapshot
  have hsortB := buildLeaves_sorted s.store
  have hnodupDiff :
      (diffMerge (buildLeaves snapshot) (buildLeaves s.store)).Nodup :=
    sorted_nodup (diffMergeF_sorted le_rfl hsortA hsortB)
  have hmem := @diffMergeF_mem
    ((buildLeaves snapshot).length + (buildLeaves s.store).length)
    (buildLeaves snapshot) (buildLeaves s.store) le_rfl hsortA hsortB
  have hcmP : alGet (make_snapshot_map snapshot) p = storeGet snapshot p :=
    alGet_make_snapshot_map snapshot p
  have hsmP : alGet (make_snapshot_map s.store) p = storeGet s.store p :=
    alGet_make_snapshot_map s.store p
  have hsmEq : make_snapshot_map s.store
      = s.store.map (fun m => (m.file_path, m)) :=
    make_snapshot_map_eq_of_nodup s.store hstore
  have hsmFst : (make_snapshot_map s.store).map Prod.fst
      = s.store.map (fun m => m.file_path) := by
    rw [hsmEq, List.map_map]
    rfl
  rw [List.count_append,
    foldl_diffStep_downloads (make_snapshot_map snapshot)
      (make_snapshot_map s.store)
      (diffMerge (buildLeaves snapshot) (buildLeaves s.store)) ({}, 0),
    count_fallback (make_snapshot_map snapshot) (make_snapshot_map s.store) p
      (by rw [hsmFst]; exact hstore)]
  simp only [List.nil_append]
  rw [count_filter_nodup _ _ _ hnodupDiff, hsmFst, hcmP, hsmP]
  by_cases hin : p ∈ s.store.map (fun m => m.file_path)
      ∧ p ∉ snapshot.map (fun m => m.file_path)
  · have hsnapNone : storeGet snapshot p = none := by
      cases h : storeGet snapshot p with
      | none => rfl
      | some v =>
        exact absurd ((storeGet_isSome snapshot p).mp (by simp [h])) hin.2
    have hstoreSome : (storeGet s.store p).isSome = true :=
      (storeGet_isSome s.store p).mpr hin.1
    have hDA : leafLookup (buildLeaves snapshot) p = none := by
      cases h : leafLookup (buildLeaves snapshot) p with
      | none => rfl
      | some v =>
        exact absurd ((buildLeaves_lookup_isSome snapshot p).mp (by simp [h]))
          hin.2
    have hDBsome : (leafLookup (buildLeaves s.store) p).isSome = true :=
      (buildLeaves_lookup_isSome s.store p).mpr hin.1
    have hmemp : p ∈ diffMerge (buildLeaves snapshot) (buildLeaves s.store) := by
      rw [diffMerge, hmem p, hDA]
      intro hcontra
      rw [← hcontra] at hDBsome
      simp at hDBsome
    have hpred : ((storeGet snapshot p).isNone && (storeGet s.store p).isSome)
        = true := by
      rw [hsnapNone, hstoreSome]
      rfl
    rw [if_pos hin, if_pos ⟨hmemp, hpred⟩, if_pos ⟨hin.1, hsnapNone⟩]
  · rw [if_neg hin]
    have hpredFalse : ¬ (p ∈ diffMerge (buildLeaves snapshot) (buildLeaves s.store)
        ∧ ((storeGet snapshot p).isNone && (storeGet s.store p).isSome) = true) := by
      rintro ⟨-, hpred⟩
      have h1 : (storeGet snapshot p).isNone = true := by
        cases h : (storeGet snapshot p).isNone <;> rw [h] at hpred <;> simp at hpred
      have h2 : (storeGet s.store p).isSome = true := by
        cases h : (storeGet s.store p).isSome <;> rw [h] at hpred <;> simp at hpred
      refine hin ⟨(storeGet_isSome s.store p).mp h2, fun hmemSnap => ?_⟩
      have := (storeGet_isSome snapshot p).mpr hmemSnap
      rw [Option.isNone_iff_eq_none] at h1
      rw [h1] at this
      simp at this
    have hfbFalse : ¬ (p ∈ s.store.map (fun m => m.file_path)
        ∧ storeGet snapshot p = none) := by
      rintro ⟨hmemStore, hnone⟩
      refine hin ⟨hmemStore, fun hmemSnap => ?_⟩
      have := (storeGet_isSome snapshot p).mpr hmemSnap
      rw [hnone] at this
      simp at this
    rw [if_neg hpredFalse, if_neg hfbFalse]

/-- Witness for C2's amended statement, at the counterexample state:
the single server-only path is listed exactly twice. -/
theorem compute_diff_download_twice_witness :
    ∃ resp, (compute_diff c2State "session-1" []).1 = .ok resp
      ∧ ∀ p, resp.files_to_download.count p =
          if p ∈ c2State.store.map (fun m => m.file_path)
              ∧ p ∉ ([] : List FileMetadata).map (fun m => m.file_path)
            then 2 else 0 :=
  compute_diff_download_twice c2State "session-1" []
    { session := { session_id := "session-1", client_id := "c",
                   state := .ComputingDiff } }
    (by decide) (by decide) (by decide)

/-! ## Replica update lemmas -/

theorem updateReplicaList_find_self (rs : List ReplicaInfo) (id : String)
    (v : Nat) (t : Int) :
    (updateReplicaList rs id v t).find? (fun r => r.replica_id = id)
      = some ⟨id, v, t⟩ := by
  induction rs with
  | nil => simp [updateReplicaList, List.find?]
  | cons r rest ih =>
    by_cases h : r.replica_id = id
    · obtain ⟨rid, rv, rt⟩ := r
      simp only at h
      simp [updateReplicaList, h, List.find?]
    · simp [updateReplicaList, h, List.find?, ih]

theorem updateReplicaList_find_other (rs : List ReplicaInfo) (id : String)
    (v : Nat) (t : Int) (other : String) (h : other ≠ id) :
    (updateReplicaList rs id v t).find? (fun r => r.replica_id = other)
      = rs.find? (fun r => r.replica_id = other) := by
  induction rs with
  | nil => simp [updateReplicaList, List.find?, Ne.symm h]
  | cons r rest ih =>
    by_cases hr : r.replica_id = id
    · have hro : ¬ r.replica_id = other := fun he => h (hr ▸ he).symm
      simp [updateReplicaList, hr, List.find?, hro, Ne.symm h]
    · by_cases hro : r.replica_id = other
      · simp [updateReplicaList, hr, List.find?, hro, h]
      · simp [updateReplicaList, hr, List.find?, hro, h, ih]

theorem find_replica_update_self (m : FileMetadata) (id : String) (v : Nat)
    (t : Int) : find_replica (m.update_replica id v t) id = some ⟨id, v, t⟩ := by
  simp only [find_replica, FileMetadata.update_replica]
  exact updateReplicaList_find_self m.replicas id v t

theorem find_replica_update_other (m : FileMetadata) (id : String) (v : Nat)
    (t : Int) (other : String) (h : other ≠ id) :
    find_replica (m.update_replica id v t) other = find_replica m other := by
  simp only [find_replica, FileMetadata.update_replica]
  exact updateReplicaList_find_other m.replicas id v t other h

theorem fsGet_cons {κ : Type} [DecidableEq κ] (e : κ × List Nat)
    (rest : FsTree κ) (k : κ) :
    fsGet (e :: rest) k = if e.1 = k then some e.2 else fsGet rest k := by
  by_cases h : e.1 = k <;> simp [fsGet, List.find?, h]

theorem fsGet_fsSet {κ : Type} [DecidableEq κ] (fs : FsTree κ) (k : κ)
    (v : List Nat) : fsGet (fsSet fs k v) k = some v := by
  induction fs with
  | nil => simp [fsSet, fsGet, List.find?]
  | cons e rest ih =>
    by_cases h : e.1 = k
    · simp [fsSet, h, fsGet, List.find?]
    · have hstep : fsSet (e :: rest) k v = e :: fsSet rest k v := by
        simp [fsSet, h]
      rw [hstep, fsGet_cons, if_neg h, ih]

theorem storeGet_storeAddOrUpdate (store : List FileMetadata)
    (m : FileMetadata) :
    storeGet (storeAddOrUpdate store m) m.file_path = some m := by
  induction store with
  | nil => simp [storeAddOrUpdate, storeGet, List.find?]
  | cons x xs ih =>
    by_cases h : x.file_path = m.file_path
    · simp [storeAddOrUpdate, h, storeGet_cons]
    · simp [storeAddOrUpdate, h, storeGet_cons, ih]

/-! ## C3 — replica versions increase by exactly one -/

/-- C3: whenever `finalize_upload` succeeds (the session exists and the
staged file's digest matches `expected_hash`), the stored record's
replica entry for the finalizing client carries version
`previous version + 1`, or `1` when that client (or the path) had no
prior entry; every other client's replica entry is carried over
unchanged; and the new record is upserted into the store. -/
theorem finalize_upload_replica_version_step
    (s : ServiceState) (sid path : String) (now : Int)
    (sd : SessionData) (content : List Nat)
    (hsd : alGet s.sessions sid = some sd)
    (hstaging : fsGet s.staging_root (sid, path) = some content) :
    ∃ m, (finalize_upload s sid path (hashBytes content) now).1 = .ok m
      ∧ find_replica m sd.session.client_id = some
          ⟨sd.session.client_id,
           (match storeGet s.store path with
            | some prev =>
              match find_replica prev sd.session.client_id with
              | some r => r.version + 1
              | none => 1
            | none => 1), now⟩
      ∧ (∀ other, other ≠ sd.session.client_id →
          find_replica m other =
            (match storeGet s.store path with
             | some prev => find_replica prev other
             | none => none))
      ∧ storeGet (finalize_upload s sid path (hashBytes content) now).2.store path
          = some m := by
  have hff : finalize_file sid path s.staging_root s.data_root (hashBytes content)
      = .ok (fsErase s.staging_root (sid, path), fsSet s.data_root path content) := by
    simp [finalize_file, hstaging]
  have hbase : build_metadata_from_disk (fsSet s.data_root path content) path now
      = { file_path := path, size := content.length, hash := hashBytes content,
          modified_time := now, created_time := now, sync_state := .SYNCED } := by
    simp [build_metadata_from_disk, fsGet_fsSet]
  cases hprev : storeGet s.store path with
  | none =>
    simp only [finalize_upload, hsd, hff, hbase, hprev, ne_eq, not_true_eq_false,
      if_neg, not_false_eq_true, ite_false]
    refine ⟨_, rfl, ?_, ?_, ?_⟩
    · exact find_replica_update_self _ _ _ _
    · intro other hother
      rw [find_replica_update_other _ _ _ _ _ hother]
      simp [find_replica, List.find?]
    · exact storeGet_storeAddOrUpdate s.store _
  | some prev =>
    cases hfr : find_replica prev sd.session.client_id with
    | none =>
      simp only [finalize_upload, hsd, hff, hbase, hprev, hfr, ne_eq,
        not_true_eq_false, if_neg, not_false_eq_true, ite_false]
      refine ⟨_, rfl, ?_, ?_, ?_⟩
      · exact find_replica_update_self _ _ _ _
      · intro other hother
        rw [find_replica_update_other _ _ _ _ _ hother]
        simp [find_replica]
      · exact storeGet_storeAddOrUpdate s.store _
    | some r =>
      simp only [finalize_upload, hsd, hff, hbase, hprev, hfr, ne_eq,
        not_true_eq_false, if_neg, not_false_eq_true, ite_false]
      refine ⟨_, rfl, ?_, ?_, ?_⟩
      · exact find_replica_update_self _ _ _ _
      · intro other hother
        rw [find_replica_update_other _ _ _ _ _ hother]
        simp [find_replica]
      · exact storeGet_storeAddOrUpdate s.store _

/-- Witness for C3: first finalize by client `c` on path `f` installs
replica version 1. -/
theorem finalize_upload_replica_version_step_witness :
    ∃ m, (finalize_upload c3State "s1" "f" (hashBytes [7, 8]) 42).1 = .ok m
      ∧ find_replica m "c" = some ⟨"c", 1, 42⟩ := by
  obtain ⟨m, h1, h2, -, -⟩ := finalize_upload_replica_version_step c3State "s1" "f" 42
    { session := { session_id := "s1", client_id := "c",
                   state := .TransferringFiles },
      pending_uploads := ["f"] } [7, 8] (by decide) (by decide)
  exact ⟨m, h1, h2⟩

/-! ## C10 — ingest_chunk never consults the session state -/

/-- C10: `ingest_chunk` succeeds exactly when the session id is known,
the chunk's path is in that session's `pending_uploads`, and
`apply_chunk` succeeds — the session's state is never consulted.  In
particular, on a session already marked `Failed`, a valid chunk for a
pending path is accepted, written to staging, and `FileChunkReceived`
is emitted last. -/
theorem ingest_chunk_ignores_session_state (s : ServiceState) (c : ChunkEnvelope) :
    ((ingest_chunk s c).1 = .ok () ↔
      ∃ sd, alGet s.sessions c.session_id = some sd
        ∧ c.file_path ∈ sd.pending_uploads
        ∧ ∃ staging', apply_chunk c s.staging_root = .ok staging')
    ∧ (∀ sd staging', alGet s.sessions c.session_id = some sd →
        sd.session.state = .Failed →
        c.file_path ∈ sd.pending_uploads →
        apply_chunk c s.staging_root = .ok staging' →
        (ingest_chunk s c).1 = .ok ()
        ∧ (ingest_chunk s c).2.staging_root = staging'
        ∧ ∃ pre, (ingest_chunk s c).2.events
            = s.events ++ pre ++ [.FileChunkReceived c.session_id c.file_path
                c.chunk_index c.total_chunks c.data.length]) := by
  constructor
  · cases halg : alGet s.sessions c.session_id with
    | none => simp [ingest_chunk, halg]
    | some sd =>
      by_cases hmem : c.file_path ∈ sd.pending_uploads
      · cases happ : apply_chunk c s.staging_root with
        | error e => simp [ingest_chunk, halg, hmem, happ]
        | ok staging' => simp [ingest_chunk, halg, hmem, happ]
      · simp [ingest_chunk, halg, hmem]
  · intro sd staging' halg _ hmem happ
    refine ⟨?_, ?_, ⟨if c.file_path ∉ sd.started_uploads then
      [Event.FileUploadStarted c.session_id c.file_path
        (c.total_chunks * c.chunk_size)] else [], ?_⟩⟩ <;>
      by_cases hins : c.file_path ∈ sd.started_uploads <;>
        simp [ingest_chunk, halg, hmem, happ, hins, setSession]

/-- Witness for C10: the `Failed` session of the fixture still accepts
a valid chunk for the pending path `f` and emits `FileChunkReceived`. -/
theorem ingest_chunk_ignores_session_state_witness :
    (ingest_chunk c10State c10Chunk).1 = .ok ()
    ∧ (ingest_chunk c10State c10Chunk).2.staging_root = [(("s1", "f"), [1, 2, 3])]
    ∧ ∃ pre, (ingest_chunk c10State c10Chunk).2.events
        = c10State.events ++ pre ++ [.FileChunkReceived "s1" "f" 0 1 3] :=
  (ingest_chunk_ignores_session_state c10State c10Chunk).2
    { session := { session_id := "s1", client_id := "c", state := .Failed,
                   last_error := "previous error" },
      pending_uploads := ["f"] }
    [(("s1", "f"), [1, 2, 3])]
    (by decide) (by decide) (by decide) (by decide)

/-! ## Positioned-write lemmas -/

theorem writeAt_length (s dd : List Nat) (off : Nat) :
    (writeAt s off dd).length = max s.length (off + dd.length) := by
  simp only [writeAt, List.length_append, List.length_take, List.length_drop,
    List.length_replicate]
  omega

theorem writeAt_get? (s dd : List Nat) (off p : Nat) :
    (writeAt s off dd).get? p =
      if off ≤ p ∧ p < off + dd.length then dd.get? (p - off)
      else if p < s.length ∧ p < off then s.get? p
      else if p < off then some 0
      else if p < s.length then s.get? p
      else none := by
  have htakelen : ((s ++ List.replicate (off - s.length) 0).take off).length
      = off := by simp; omega
  have hpadget : ∀ q, (s ++ List.replicate (off - s.length) 0).get? q
      = if q < s.length then s.get? q
        else if q < off then some 0 else none := by
    intro q
    by_cases hq : q < s.length
    · rw [List.get?_append hq, if_pos hq]
    · rw [List.get?_append_right (by omega), if_neg hq,
        List.get?_eq_getElem?, List.getElem?_replicate]
      by_cases hq2 : q < off
      · rw [if_pos (by omega), if_pos hq2]
      · rw [if_neg (by omega), if_neg hq2]
  show ((s ++ List.replicate (off - s.length) 0).take off
      ++ dd ++ (s ++ List.replicate (off - s.length) 0).drop (off + dd.length)).get? p
    = _
  by_cases h1 : p < off
  · rw [List.get?_append (by simp only [List.length_append, htakelen]; omega),
      List.get?_append (by rw [htakelen]; exact h1), List.get?_take h1, hpadget p]
    have hno : ¬ (off ≤ p ∧ p < off + dd.length) := by omega
    by_cases hs : p < s.length
    · simp [hno, hs, h1]
    · simp [hno, hs, h1]
  · by_cases h2 : p < off + dd.length
    · rw [List.get?_append (by simp only [List.length_append, htakelen]; omega),
        List.get?_append_right (by rw [htakelen]; omega), htakelen,
        if_pos (⟨by omega, h2⟩ : off ≤ p ∧ p < off + dd.length)]
    · rw [List.get?_append_right (by simp only [List.length_append, htakelen]; omega)]
      have hidx : p - ((s ++ List.replicate (off - s.length) 0).take off
          ++ dd).length = p - off - dd.length := by
        simp only [List.length_append, htakelen]; omega
      rw [hidx, List.get?_drop, hpadget]
      have harith : off + dd.length + (p - off - dd.length) = p := by omega
      rw [harith]
      have hno : ¬ (off ≤ p ∧ p < off + dd.length) := by omega
      by_cases hs : p < s.length
      · simp [hno, hs, h1]
      · simp [hno, hs, h1]

theorem take_drop_get? (F : List Nat) (a b j : Nat) (h : j < b) :
    ((F.drop a).take b).get? j = F.get? (a + j) := by
  rw [List.get?_take h, List.get?_drop]

/-! ## Chunk arithmetic -/

theorem uploadChunks_length (F : List Nat) (C : Nat) (sid path : String) :
    (uploadChunks F C sid path).length = (F.length + C - 1) / C := by
  simp [uploadChunks]

theorem uploadChunks_fields {F : List Nat} {C : Nat} {sid path : String}
    {c : ChunkEnvelope} (h : c ∈ uploadChunks F C sid path) :
    c.session_id = sid ∧ c.file_path = path ∧ c.chunk_size = C
    ∧ c.chunk_index < (F.length + C - 1) / C
    ∧ c.data = (F.drop (c.chunk_index * C)).take C
    ∧ c.chunk_hash = hashBytes c.data
    ∧ c.total_chunks = (F.length + C - 1) / C := by
  simp only [uploadChunks, List.mem_map, List.mem_range] at h
  obtain ⟨i, hi, rfl⟩ := h
  exact ⟨rfl, rfl, rfl, hi, rfl, rfl, rfl⟩

theorem uploadChunks_map_index (F : List Nat) (C : Nat) (sid path : String) :
    (uploadChunks F C sid path).map (fun c => c.chunk_index)
      = List.range ((F.length + C - 1) / C) := by
  simp [uploadChunks, List.map_map]
  exact List.map_id _

theorem mul_lt_of_lt_ceilDiv {L C j : Nat} (hC : 0 < C)
    (h : j < (L + C - 1) / C) : j * C < L := by
  have h1 : (j + 1) * C ≤ ((L + C - 1) / C) * C :=
    Nat.mul_le_mul_right C h
  have h2 : ((L + C - 1) / C) * C ≤ L + C - 1 := Nat.div_mul_le_self _ _
  have h3 : (j + 1) * C = j * C + C := Nat.succ_mul j C
  omega

theorem ceilDiv_mul_ge {L C : Nat} (hC : 0 < C) :
    L ≤ ((L + C - 1) / C) * C := by
  have h1 := Nat.div_add_mod (L + C - 1) C
  have h2 : (L + C - 1) % C < C := Nat.mod_lt _ hC
  have h3 : ((L + C - 1) / C) * C = C * ((L + C - 1) / C) := Nat.mul_comm _ _
  omega

theorem ceilDiv_pos {L C : Nat} (hC : 0 < C) (hL : 0 < L) :
    0 < (L + C - 1) / C :=
  Nat.div_pos (by omega) hC

theorem chunkEnd_le (F : List Nat) (C i : Nat) : chunkEnd F C i ≤ F.length :=
  min_le_right _ _

theorem maxEnd_le_length (F : List Nat) (C : Nat) (S : List Nat) :
    maxEnd F C S ≤ F.length := by
  induction S with
  | nil => simp [maxEnd]
  | cons k rest ih =>
    simp only [maxEnd, List.foldr_cons] at ih ⊢
    exact max_le (chunkEnd_le F C k) ih

theorem chunkEnd_le_maxEnd {F : List Nat} {C : Nat} {S : List Nat} {k : Nat}
    (h : k ∈ S) : chunkEnd F C k ≤ maxEnd F C S := by
  induction S with
  | nil => cases h
  | cons j rest ih =>
    simp only [maxEnd, List.foldr_cons]
    rcases List.mem_cons.mp h with he | ht
    · exact he ▸ le_max_left _ _
    · exact le_trans (ih ht) (le_max_right _ _)

/-! ## The chunk coverage invariant -/

theorem coverInv_nil (F : List Nat) (C : Nat) : coverInv F C [] [] := by
  constructor
  · simp [maxEnd]
  · intro p hp
    simp at hp

theorem coverInv_step (F : List Nat) (C : Nat) (hC : 0 < C) (S : List Nat)
    (content : List Nat) (j : Nat)
    (hinv : coverInv F C S content)
    (hj : j < (F.length + C - 1) / C) (hjS : j ∉ S)
    (hSn : ∀ k ∈ S, k < (F.length + C - 1) / C) :
    coverInv F C (j :: S)
      (writeAt content (j * C) ((F.drop (j * C)).take C)) := by
  obtain ⟨hlen, hpt⟩ := hinv
  have hjCL : j * C < F.length := mul_lt_of_lt_ceilDiv hC hj
  have hsucc : (j + 1) * C = j * C + C := Nat.succ_mul j C
  have hdlen : ((F.drop (j * C)).take C).length = chunkEnd F C j - j * C := by
    simp only [List.length_take, List.length_drop, chunkEnd]
    omega
  have hend : j * C + ((F.drop (j * C)).take C).length = chunkEnd F C j := by
    rw [hdlen]
    have : j * C ≤ chunkEnd F C j := by
      simp only [chunkEnd]
      omega
    omega
  constructor
  · rw [writeAt_length, hlen, hend]
    show max (maxEnd F C S) (chunkEnd F C j) = maxEnd F C (j :: S)
    simp only [maxEnd, List.foldr_cons]
    exact Nat.max_comm _ _
  · intro p hp
    rw [writeAt_length, hlen, hend] at hp
    rw [writeAt_get?]
    by_cases hA : j * C ≤ p ∧ p < j * C + ((F.drop (j * C)).take C).length
    · have hdC : ((F.drop (j * C)).take C).length ≤ C := by
        simp [List.length_take]
      rw [if_pos hA, take_drop_get? F (j * C) C (p - j * C) (by omega)]
      have harith : j * C + (p - j * C) = p := by omega
      rw [harith]
      have hdiv : p / C = j :=
        Nat.div_eq_of_lt_le hA.1 (by rw [hsucc]; omega)
      rw [if_pos (by rw [hdiv]; exact List.mem_cons_self j S)]
    · rw [if_neg hA]
      by_cases hB : p < j * C
      · have hdivlt : p / C < j := (Nat.div_lt_iff_lt_mul hC).mpr hB
        by_cases hc1 : p < content.length
        · rw [if_pos ⟨hc1, hB⟩, hpt p hc1]
          have hmem : (p / C ∈ j :: S) ↔ (p / C ∈ S) := by
            rw [List.mem_cons]
            have : p / C ≠ j := by omega
            simp [this]
          rw [if_congr hmem rfl rfl]
        · have hpL : p < F.length := by
            have := chunkEnd_le F C j
            omega
          have hnot : p / C ∉ S := by
            intro hk
            have h1 : chunkEnd F C (p / C) ≤ maxEnd F C S := chunkEnd_le_maxEnd hk
            have h2 : p < chunkEnd F C (p / C) := by
              have hmod := Nat.div_add_mod p C
              have hmodlt : p % C < C := Nat.mod_lt _ hC
              have hsucc2 : (p / C + 1) * C = (p / C) * C + C := Nat.succ_mul _ _
              have hmul : C * (p / C) = (p / C) * C := Nat.mul_comm _ _
              simp only [chunkEnd]
              omega
            omega
          have hnotj : p / C ∉ j :: S := by
            rw [List.mem_cons]
            rintro (he | hm)
            · omega
            · exact hnot hm
          rw [if_neg (by omega : ¬ (p < content.length ∧ p < j * C)),
            if_pos hB, if_neg hnotj]
      · have hge : j * C + ((F.drop (j * C)).take C).length ≤ p := by omega
        have hlt : p < content.length := by omega
        rw [if_neg (by omega : ¬ (p < content.length ∧ p < j * C)),
          if_neg (by omega : ¬ p < j * C), if_pos hlt, hpt p hlt]
        have hLbound : maxEnd F C S ≤ F.length := maxEnd_le_length F C S
        have hdivgt : p / C ≠ j := by
          have hpend : chunkEnd F C j ≤ p := by omega
          simp only [chunkEnd] at hpend
          have hple : p < F.length := by omega
          have h1 : (j + 1) * C ≤ p := by omega
          have h2 : j + 1 ≤ p / C := (Nat.le_div_iff_mul_le hC).mpr h1
          omega
        have hmem : (p / C ∈ j :: S) ↔ (p / C ∈ S) := by
          rw [List.mem_cons]
          simp [hdivgt]
        rw [if_congr hmem rfl rfl]

theorem applyAll_inv (F : List Nat) (C : Nat) (sid path : String) (hC : 0 < C) :
    ∀ (cs : List ChunkEnvelope) (st : FsTree (String × String)) (S : List Nat),
    (∀ c ∈ cs, c ∈ uploadChunks F C sid path) →
    (cs.map (fun c => c.chunk_index)).Nodup →
    (∀ c ∈ cs, c.chunk_index ∉ S) →
    (∀ k ∈ S, k < (F.length + C - 1) / C) →
    coverInv F C S ((fsGet st (sid, path)).getD []) →
    ∃ st', applyAll cs st = .ok st'
      ∧ coverInv F C ((cs.map (fun c => c.chunk_index)).reverse ++ S)
          ((fsGet st' (sid, path)).getD [])
  | [], st, S, _, _, _, _, hinv => ⟨st, rfl, by simpa using hinv⟩
  | c :: rest, st, S, hmem, hnodup, hdisj, hSn, hinv => by
    obtain ⟨hsid, hpath, hsize, hidx, hdata, hhash, -⟩ :=
      uploadChunks_fields (hmem c (List.mem_cons_self c rest))
    have happ : apply_chunk c st = .ok (fsSet st (sid, path)
        (writeAt ((fsGet st (sid, path)).getD []) (c.chunk_index * C)
          ((F.drop (c.chunk_index * C)).take C))) := by
      rw [apply_chunk, if_neg (by simp [hhash])]
      rw [hsid, hpath, hsize, hdata]
    have hnodup' : (c.chunk_index :: rest.map (fun c => c.chunk_index)).Nodup := by
      rw [List.map_cons] at hnodup; exact hnodup
    have hstep := coverInv_step F C hC S ((fsGet st (sid, path)).getD [])
      c.chunk_index hinv hidx (hdisj c (List.mem_cons_self c rest)) hSn
    obtain ⟨st', h1, h2⟩ := applyAll_inv F C sid path hC rest
      (fsSet st (sid, path)
        (writeAt ((fsGet st (sid, path)).getD []) (c.chunk_index * C)
          ((F.drop (c.chunk_index * C)).take C)))
      (c.chunk_index :: S)
      (fun c' hc' => hmem c' (List.mem_cons_of_mem _ hc'))
      (List.nodup_cons.mp hnodup').2
      (fun c' hc' => by
        rw [List.mem_cons]
        rintro (he | hm)
        · exact (List.nodup_cons.mp hnodup').1
            (he ▸ List.mem_map.mpr ⟨c', hc', rfl⟩)
        · exact hdisj c' (List.mem_cons_of_mem _ hc') hm)
      (fun k hk => by
        rcases List.mem_cons.mp hk with he | hm
        · exact he ▸ hidx
        · exact hSn k hm)
      (by rw [fsGet_fsSet]; exact hstep)
    refine ⟨st', ?_, ?_⟩
    · rw [show applyAll (c :: rest) st
          = match apply_chunk c st with
            | .error e => .error e
            | .ok staging' => applyAll rest staging' from rfl, happ]
      exact h1
    · have hshape : ((c :: rest).map (fun c => c.chunk_index)).reverse ++ S
          = (rest.map (fun c => c.chunk_index)).reverse ++ (c.chunk_index :: S) := by
        simp
      rw [hshape]
      exact h2

/-! ## C4 — chunk pipeline round trip (corrected) -/

/-- C4 counterexample: for empty contents, `upload_file` produces no
chunk envelopes, so no staging file is ever created and `finalize_file`
fails with "Staging file missing" instead of succeeding — the claim's
"including empty" does not hold on the code. -/
theorem upload_empty_file_counterexample :
    uploadChunks [] 1 "s" "p" = []
    ∧ applyAll (uploadChunks [] 1 "s" "p") [] = .ok []
    ∧ finalize_file "s" "p" [] [] (hashBytes [])
        = .error ("Staging file missing: " ++ "p") := by
  refine ⟨rfl, rfl, rfl⟩

/-- C4 (amended, `F` non-empty): `upload_file` over contents `F` with
chunk size `C > 0` produces `⌈|F|/C⌉` envelopes whose `chunk_hash` is
the digest of their data and whose `total_chunks` is `⌈|F|/C⌉`; applying
the envelopes through `apply_chunk` in any order succeeds and assembles
exactly `F` in the staging file; and `finalize_file` with
`expected_hash = digest(F)` then succeeds and leaves
`destination_root/<path>` containing byte-for-byte `F`. -/
theorem upload_apply_finalize_roundtrip
    (F : List Nat) (C : Nat) (sid path : String) (dest : FsTree String)
    (hC : 0 < C) (hF : F ≠ [])
    (perm : List ChunkEnvelope)
    (hperm : perm.Perm (uploadChunks F C sid path)) :
    (uploadChunks F C sid path).length = (F.length + C - 1) / C
    ∧ (∀ c ∈ uploadChunks F C sid path,
        c.chunk_hash = hashBytes c.data ∧ c.total_chunks = (F.length + C - 1) / C)
    ∧ ∃ staging', applyAll perm [] = .ok staging'
        ∧ fsGet staging' (sid, path) = some F
        ∧ finalize_file sid path staging' dest (hashBytes F)
            = .ok (fsErase staging' (sid, path), fsSet dest path F)
        ∧ fsGet (fsSet dest path F) path = some F := by
  refine ⟨uploadChunks_length F C sid path, fun c hc =>
    ⟨(uploadChunks_fields hc).2.2.2.2.2.1, (uploadChunks_fields hc).2.2.2.2.2.2⟩, ?_⟩
  have hmapidx : (perm.map (fun c => c.chunk_index)).Perm
      (List.range ((F.length + C - 1) / C)) := by
    have := hperm.map (fun c => c.chunk_index)
    rwa [uploadChunks_map_index] at this
  obtain ⟨st', happly, hinv⟩ := applyAll_inv F C sid path hC perm [] []
    (fun c hc => hperm.subset hc)
    (hmapidx.nodup_iff.mpr (List.nodup_range _))
    (fun c _ => List.not_mem_nil _)
    (fun k hk => absurd hk (List.not_mem_nil k))
    (coverInv_nil F C)
  have hLpos : 0 < F.length := List.length_pos.mpr hF
  have hnpos : 0 < (F.length + C - 1) / C := ceilDiv_pos hC hLpos
  have hmemS : ∀ x, x ∈ (perm.map (fun c => c.chunk_index)).reverse ++ ([] : List Nat)
      ↔ x < (F.length + C - 1) / C := by
    intro x
    simp only [List.append_nil, List.mem_reverse]
    rw [hmapidx.mem_iff, List.mem_range]
  obtain ⟨hlen, hpt⟩ := hinv
  have hmaxle : maxEnd F C ((perm.map (fun c => c.chunk_index)).reverse ++ [])
      ≤ F.length := maxEnd_le_length F C _
  have hnC : F.length ≤ ((F.length + C - 1) / C) * C := ceilDiv_mul_ge hC
  have hmaxge : F.length
      ≤ maxEnd F C ((perm.map (fun c => c.chunk_index)).reverse ++ []) := by
    have hmem : ((F.length + C - 1) / C - 1)
        ∈ (perm.map (fun c => c.chunk_index)).reverse ++ ([] : List Nat) :=
      (hmemS _).mpr (by omega)
    have h1 := chunkEnd_le_maxEnd (F := F) (C := C) hmem
    have h2 : chunkEnd F C ((F.length + C - 1) / C - 1) = F.length := by
      have h4 : (F.length + C - 1) / C - 1 + 1 = (F.length + C - 1) / C := by omega
      simp only [chunkEnd, h4]
      omega
    omega
  have hcontentlen : ((fsGet st' (sid, path)).getD []).length = F.length := by
    omega
  have hcontent : (fsGet st' (sid, path)).getD [] = F := by
    apply List.ext_get?
    intro q
    by_cases hq : q < F.length
    · rw [hpt q (by omega)]
      have hqdiv : q / C < (F.length + C - 1) / C :=
        (Nat.div_lt_iff_lt_mul hC).mpr (lt_of_lt_of_le hq hnC)
      rw [if_pos ((hmemS _).mpr hqdiv)]
    · rw [List.get?_eq_none.mpr (by omega), List.get?_eq_none.mpr (by omega)]
  have hfsome : fsGet st' (sid, path) = some F := by
    cases hfs : fsGet st' (sid, path) with
    | none =>
      rw [hfs] at hcontent
      exact absurd hcontent.symm hF
    | some c =>
      rw [hfs] at hcontent
      exact congrArg some hcontent
  refine ⟨st', happly, hfsome, ?_, fsGet_fsSet dest path F⟩
  simp [finalize_file, hfsome]

/-- Witness for C4's amended statement: the three-byte file `[1, 2, 3]`
at chunk size 2, with the two chunks applied in reverse order. -/
theorem upload_apply_finalize_roundtrip_witness :
    ∃ staging',
      applyAll ((uploadChunks [1, 2, 3] 2 "s" "p").reverse) [] = .ok staging'
      ∧ fsGet staging' ("s", "p") = some [1, 2, 3]
      ∧ finalize_file "s" "p" staging' [] (hashBytes [1, 2, 3])
          = .ok (fsErase staging' ("s", "p"), fsSet [] "p" [1, 2, 3])
      ∧ fsGet (fsSet [] "p" [1, 2, 3]) "p" = some [1, 2, 3] :=
  (upload_apply_finalize_roundtrip [1, 2, 3] 2 "s" "p" [] (by decide) (by decide)
    ((uploadChunks [1, 2, 3] 2 "s" "p").reverse)
    (List.reverse_perm (uploadChunks [1, 2, 3] 2 "s" "p"))).2.2

/-! ## Change detector lemmas -/

theorem alGet_isSome_iff {α : Type} (l : List (String × α)) (p : String) :
    (alGet l p).isSome = true ↔ p ∈ l.map Prod.fst := by
  induction l with
  | nil => simp [alGet]
  | cons kv rest ih =>
    by_cases h : kv.1 = p
    · simp [alGet_cons kv.1 kv.2, h]
    · simp only [List.map_cons, List.mem_cons]
      rw [show kv :: rest = (kv.1, kv.2) :: rest from rfl,
        alGet_cons kv.1 kv.2, if_neg h]
      simp [ih, Ne.symm h]

theorem storeGet_of_mem_nodup {S : List FileMetadata} {m : FileMetadata}
    (hnodup : (S.map (fun m => m.file_path)).Nodup) (hm : m ∈ S) :
    storeGet S m.file_path = some m := by
  induction S with
  | nil => cases hm
  | cons x rest ih =>
    have hn : (x.file_path :: rest.map (fun m => m.file_path)).Nodup := by
      rw [List.map_cons] at hnodup; exact hnodup
    rcases List.mem_cons.mp hm with he | ht
    · subst he
      rw [storeGet_cons, if_pos rfl]
    · have hne : x.file_path ≠ m.file_path := by
        intro he
        exact (List.nodup_cons.mp hn).1 (he ▸ List.mem_map.mpr ⟨m, ht, rfl⟩)
      rw [storeGet_cons, if_neg hne]
      exact ih (List.nodup_cons.mp hn).2 ht

theorem processEntry_fold (rid : String) (known : List (String × FileMetadata)) :
    ∀ (ds : List DirEntry) (acc : List FileChange × List (String × FileMetadata)),
    (∀ e ∈ ds, ∃ m, alGet known e.path = some m
        ∧ metadata_equal m (build_metadata e) = true) →
    (∀ e ∈ ds, alGet acc.2 e.path = none) →
    ((ds.map (fun e => e.path)).Nodup) →
    ds.foldl (processEntry rid known) acc
      = (acc.1, acc.2 ++ ds.map (fun e => (e.path, (alGet known e.path).getD {})))
  | [], acc, _, _, _ => by simp
  | e :: rest, acc, hmatch, hfresh, hnodup => by
    obtain ⟨m, hm, heq⟩ := hmatch e (List.mem_cons_self e rest)
    have hstep : processEntry rid known acc e = (acc.1, acc.2 ++ [(e.path, m)]) := by
      rw [processEntry, hm]
      simp only [heq, if_pos]
      rw [alEmplace, hfresh e (List.mem_cons_self e rest)]
    have hn : (e.path :: rest.map (fun e => e.path)).Nodup := by
      rw [List.map_cons] at hnodup; exact hnodup
    rw [List.foldl_cons, hstep,
      processEntry_fold rid known rest (acc.1, acc.2 ++ [(e.path, m)])
        (fun e' he' => hmatch e' (List.mem_cons_of_mem _ he'))
        (fun e' he' => by
          rw [alGet_append, hfresh e' (List.mem_cons_of_mem _ he')]
          have hne : e.path ≠ e'.path := by
            intro hcontra
            exact (List.nodup_cons.mp hn).1
              (hcontra ▸ List.mem_map.mpr ⟨e', he', rfl⟩)
          simp [alGet_cons, alGet, hne])
        (List.nodup_cons.mp hn).2]
    simp [hm]

/-! ## C9 — change detector round trip -/

/-- C9: after `load_snapshot(S)`, scanning a directory whose regular
files match `S` exactly in relative path, content digest, size, and
modification time yields an empty change list and a post-scan snapshot
that is a permutation of `S`; nothing in the hypotheses constrains the
replica lists (or sync states) of `S`, so differences confined to
replica information never produce a change. -/
theorem scan_matching_directory_no_changes
    (rid : String) (S : List FileMetadata) (dir : List DirEntry)
    (hSnodup : (S.map (fun m => m.file_path)).Nodup)
    (hdirnodup : (dir.map (fun e => e.path)).Nodup)
    (hsame : ∀ p, p ∈ dir.map (fun e => e.path) ↔ p ∈ S.map (fun m => m.file_path))
    (hmatch : ∀ e ∈ dir, ∃ m ∈ S, m.file_path = e.path
        ∧ m.hash = hashBytes e.content ∧ m.size = e.content.length
        ∧ m.modified_time = e.mtime) :
    (scan_directory (load_snapshot rid S) dir).1.changes = []
    ∧ (scan_directory (load_snapshot rid S) dir).1.snapshot.Perm S := by
  have hknown : (load_snapshot rid S).known = make_snapshot_map S := rfl
  have hknownEq : (load_snapshot rid S).known = S.map (fun m => (m.file_path, m)) := by
    rw [hknown]
    exact make_snapshot_map_eq_of_nodup S hSnodup
  have hlookup : ∀ p, alGet (load_snapshot rid S).known p = storeGet S p := by
    intro p
    rw [hknown]
    exact alGet_make_snapshot_map S p
  have hmatch' : ∀ e ∈ dir, ∃ m, alGet (load_snapshot rid S).known e.path = some m
      ∧ metadata_equal m (build_metadata e) = true := by
    intro e he
    obtain ⟨m, hmS, hpath, hhash, hsize, hmtime⟩ := hmatch e he
    refine ⟨m, ?_, ?_⟩
    · rw [hlookup, ← hpath]
      exact storeGet_of_mem_nodup hSnodup hmS
    · simp [metadata_equal, build_metadata, hhash, hsize, hmtime]
  have hfold := processEntry_fold (load_snapshot rid S).replica_id
    (load_snapshot rid S).known dir ([], []) hmatch' (fun e _ => rfl) hdirnodup
  have hfold' : dir.foldl (processEntry (load_snapshot rid S).replica_id
      (load_snapshot rid S).known) ([], [])
      = (([] : List FileChange), dir.map (fun e =>
          (e.path, (alGet (load_snapshot rid S).known e.path).getD {}))) := by
    rw [hfold]
    rfl
  have hscan : scan_directory (load_snapshot rid S) dir
      = (⟨([] : List FileChange)
            ++ (load_snapshot rid S).known.filterMap (fun kv =>
              if (alGet (dir.map (fun e =>
                  (e.path, (alGet (load_snapshot rid S).known e.path).getD {})))
                  kv.1).isSome then none
              else some (deletionChange (load_snapshot rid S).replica_id kv.1 kv.2)),
          (dir.map (fun e =>
            (e.path, (alGet (load_snapshot rid S).known e.path).getD {}))).map
              (fun kv => kv.2)⟩,
         ⟨(load_snapshot rid S).replica_id,
          dir.map (fun e =>
            (e.path, (alGet (load_snapshot rid S).known e.path).getD {}))⟩) := by
    simp only [scan_directory]
    rw [hfold']
  have hnextkeys : ∀ p,
      (alGet (dir.map (fun e =>
          (e.path, (alGet (load_snapshot rid S).known e.path).getD {}))) p).isSome
        = true
      ↔ p ∈ dir.map (fun e => e.path) := by
    intro p
    rw [alGet_isSome_iff, List.map_map]
    rfl
  constructor
  · rw [hscan]
    show ([] : List FileChange) ++ _ = _
    rw [List.nil_append, List.filterMap_eq_nil]
    intro kv hkv
    have hkey : kv.1 ∈ S.map (fun m => m.file_path) := by
      rw [hknownEq] at hkv
      rcases List.mem_map.mp hkv with ⟨m, hmS, he⟩
      exact List.mem_map.mpr ⟨m, hmS, by rw [← he]⟩
    rw [if_pos ((hnextkeys kv.1).mpr ((hsame kv.1).mpr hkey))]
  · rw [hscan]
    show ((dir.map (fun e =>
        (e.path, (alGet (load_snapshot rid S).known e.path).getD {}))).map
          (fun kv => kv.2)).Perm S
    rw [List.map_map]
    have hfn : ∀ e ∈ dir,
        ((fun kv : String × FileMetadata => kv.2) ∘ fun e : DirEntry =>
          (e.path, (alGet (load_snapshot rid S).known e.path).getD {})) e
        = ((fun p => (storeGet S p).getD {}) ∘ fun e : DirEntry => e.path) e := by
      intro e _
      simp [Function.comp, hlookup]
    rw [List.map_congr_left hfn, ← List.map_map]
    have hpathperm : (dir.map (fun e => e.path)).Perm
        (S.map (fun m => m.file_path)) :=
      (List.perm_ext_iff_of_nodup hdirnodup hSnodup).mpr hsame
    have hfinal : (S.map (fun m => m.file_path)).map
        (fun p => (storeGet S p).getD {}) = S := by
      rw [List.map_map]
      have hid : ∀ m ∈ S, ((fun p => (storeGet S p).getD {})
          ∘ fun m : FileMetadata => m.file_path) m = id m := by
        intro m hm
        simp [Function.comp, storeGet_of_mem_nodup hSnodup hm]
      rw [List.map_congr_left hid, List.map_id]
    calc ((dir.map (fun e => e.path)).map (fun p => (storeGet S p).getD {})).Perm
          ((S.map (fun m => m.file_path)).map (fun p => (storeGet S p).getD {})) :=
        hpathperm.map _
      _ = S := hfinal

/-- Witness for C9: the one-file directory matching the fixture snapshot
(which carries replica information for another replica) produces no
changes and returns the snapshot unchanged. -/
theorem scan_matching_directory_no_changes_witness :
    (scan_directory (load_snapshot "laptop" c9Snapshot) c9Dir).1.changes = []
    ∧ (scan_directory (load_snapshot "laptop" c9Snapshot) c9Dir).1.snapshot.Perm
        c9Snapshot :=
  scan_matching_directory_no_changes "laptop" c9Snapshot c9Dir
    (by decide) (by decide) (fun p => Iff.rfl) (by decide)

/-! ## C1 — the S1 upload lifecycle (code bug) -/

/-- C1: in the S1 happy path every step succeeds, the store holds
`docs/note.txt` with one replica `(client-1, 1)`, and `SyncCompleted` is
emitted — but the session ends in `ComputingDiff`, not `Complete`:
`compute_diff` attempts `ComputingDiff → TransferringFiles`, which
`is_progressive` forbids, and discards the error, so the later
`ApplyingChanges` / `Complete` transitions also fail silently.  The
repository's own test `UploadLifecycleCompletesSession` asserts
`Complete` here. -/
theorem upload_lifecycle_session_not_complete :
    scenario1Finalize.1 = .ok scenario1StoredMeta
    ∧ storeGet scenario1Finalize.2.store "docs/note.txt" = some scenario1StoredMeta
    ∧ Event.SyncCompleted "client-1" 1 ∈ scenario1Finalize.2.events
    ∧ session_info scenario1Finalize.2 "session-1" =
        .ok { session_id := "session-1", client_id := "client-1",
              state := .ComputingDiff, files_pending := 0, bytes_pending := 0,
              last_error := "" } := by
  decide

end DFS
